import Mathlib

/-!
# Verification of the `SimpleYamlParser` codec (src/src/utils/helpers.ts)

Shallow embedding of the dependency-free YAML-subset codec: the decoder
`SimpleYamlParser.parse` and the encoder `SimpleYamlParser.stringify`,
together with their helpers `getIndentLevel`, `handleArrayItem`,
`handleKeyValue`, `parseValue` and `formatValue`.

Modelling choices, all visible in the definitions below:
* Strings are `List Char` (`Str`), so that every text operation of the
  source (trim, split, indexOf, substring) is a plain recursive function.
* JavaScript objects are insertion-ordered association lists; assignment
  to an existing key updates the entry in place, a new key is appended.
  `Object.keys` enumeration — array-index keys such as "0" first in
  numeric order, then insertion order — is modelled by `jsKeys` where the
  source reads `keys[keys.length - 1]`; the encoder's `Object.entries`
  loop is modelled in insertion order, and the encoder theorems restrict
  quantified keys to ones that are not pure digit strings.)
* The decoder's frame stack holds object values directly; popping a frame
  writes the child object back into its parent slot.  In the JS original
  frames hold references into the result, so the write-back is a no-op
  there; it is observationally equivalent because the source only ever
  mutates the object of the top frame, and a slot is only ever replaced
  after every frame aliasing it has been popped.
* JS numbers: the `parseInt` branch is modelled with exact integers
  (`Int`), the `parseFloat` branch by a constructor carrying the matched
  literal.  IEEE-754 double behaviour (precision loss above 2^53,
  re-canonicalisation of decimal literals) is not modelled; every theorem
  below keeps decimal literals and floats out of its scope by hypothesis.
* The one runtime fault of the source — `targetArray.push` when the
  `items` fallback finds a truthy non-array — is modelled with `Except`.
-/

namespace YamlCodec

abbrev Str := List Char

/-- Whitespace for JS `String.prototype.trim` (ASCII subset; the inputs
the codec handles contain only these). -/
def isWs (c : Char) : Bool :=
  c = ' ' || c = '\t' || c = '\n' || c = '\r' || c = '\x0b' || c = '\x0c'

/-- Right trim, recursively: keep a character if anything non-blank
follows it. -/
def trimR : Str → Str
  | [] => []
  | c :: cs =>
    let r := trimR cs
    if r = [] && isWs c then [] else c :: r

/-- JS `line.trim()`. -/
def jsTrim (s : Str) : Str := trimR (s.dropWhile isWs)

/-- JS `String.split('\n')`. -/
def splitNL : Str → List Str
  | [] => [[]]
  | c :: cs =>
    if c = '\n' then [] :: splitNL cs
    else
      match splitNL cs with
      | [] => [[c]]
      | l :: ls => (c :: l) :: ls

/-- Does the trimmed line start with `"- "`? -/
def dashSpace : Str → Bool
  | '-' :: ' ' :: _ => true
  | _ => false

/-- Index of the first `':'` (JS `indexOf(':')`), `none` when absent. -/
def firstColon : Str → Option Nat
  | [] => none
  | c :: cs =>
    if c = ':' then some 0
    else (firstColon cs).map (· + 1)

/-- `SimpleYamlParser.getIndentLevel`: leading spaces count 1, leading
tabs count 2, stop at the first other character. -/
def getIndentLevel : Str → Nat
  | ' ' :: cs => getIndentLevel cs + 1
  | '\t' :: cs => getIndentLevel cs + 2
  | _ => 0

def isDigitCh (c : Char) : Bool := '0' ≤ c && c ≤ '9'

/-- JS regex `/^-?\d+$/`. -/
def intRegex : Str → Bool
  | '-' :: rest => rest ≠ [] && rest.all isDigitCh
  | s => s ≠ [] && s.all isDigitCh

/-- JS regex `/^-?\d*\.\d+$/`: an optional minus, digits, a dot, then
one or more digits. -/
def decRegex (s : Str) : Bool :=
  let w := if s.head? = some '-' then s.tail else s
  let ip := w.takeWhile (· ≠ '.')
  let rest := w.drop ip.length
  if rest.head? = some '.' then
    ip.all isDigitCh && !rest.tail.isEmpty && rest.tail.all isDigitCh
  else false

def digitVal (c : Char) : Nat := c.toNat - '0'.toNat

/-- Value of a digit string (exact; JS `parseInt` rounds above 2^53,
which no theorem below relies on). -/
def digitsVal (s : Str) : Nat := s.foldl (fun a c => 10 * a + digitVal c) 0

/-- JS `parseInt(value, 10)` on a string matching `intRegex`. -/
def parseIntJs : Str → Int
  | '-' :: rest => -(digitsVal rest : Int)
  | s => (digitsVal s : Int)

/-- The value model: what a decoded document is made of.  `float` keeps
the matched decimal literal; JS double semantics are deliberately not
modelled (see the header comment). -/
inductive JsVal where
  | null
  | bool (b : Bool)
  | int (n : Int)
  | float (lit : Str)
  | str (s : Str)
  | arr (elems : List JsVal)
  | obj (entries : List (Str × JsVal))

instance : Inhabited JsVal := ⟨JsVal.null⟩

abbrev JsObj := List (Str × JsVal)

/-- Object property read. -/
def getKey (o : JsObj) (k : Str) : Option JsVal :=
  match o with
  | [] => none
  | (k', v) :: rest => if k' = k then some v else getKey rest k

/-- Object property write: update in place, or append a new key —
JS enumeration-order semantics for non-integer-like keys. -/
def setKey (o : JsObj) (k : Str) (v : JsVal) : JsObj :=
  match o with
  | [] => [(k, v)]
  | (k', v') :: rest => if k' = k then (k', v) :: rest else (k', v') :: setKey rest k v

/-- JS truthiness of a stored value (`undefined` is handled at the call
sites via `Option`). -/
def truthy : JsVal → Bool
  | .null => false
  | .bool b => b
  | .int n => n ≠ 0
  | .float lit => ¬ lit.all (fun c => c = '0' || c = '.' || c = '-')
  | .str s => s ≠ []
  | .arr _ => true
  | .obj _ => true

def truthyOpt : Option JsVal → Bool
  | none => false
  | some v => truthy v

/-- `SimpleYamlParser.parseValue`. -/
def parseValue (value : Str) : JsVal :=
  if value = "true".data then .bool true
  else if value = "false".data then .bool false
  else if value = "null".data || value = "~".data then .null
  else if value = [] then .str []
  else if intRegex value then .int (parseIntJs value)
  else if decRegex value then .float value
  else if (value.head? = some '\x22' && value.getLast? = some '\x22')
       || (value.head? = some '\x27' && value.getLast? = some '\x27') then
    .str (value.drop 1).dropLast
  else .str value

/-- One frame of the decoder stack: the object being filled, the indent
of the line that opened it, and the key under which it sits in its
parent. -/
structure Frame where
  obj : JsObj
  indent : Nat
  key : Str

/-- Decoder state: root object, frames above the sentinel (top first),
and the scan-global `currentArrayKey`. -/
structure PState where
  root : JsObj
  frames : List Frame
  cak : Option Str

def initState : PState := ⟨[], [], none⟩

def topObj (st : PState) : JsObj :=
  match st.frames with
  | [] => st.root
  | f :: _ => f.obj

def setTop (st : PState) (o : JsObj) : PState :=
  match st.frames with
  | [] => { st with root := o }
  | f :: fs => { st with frames := { f with obj := o } :: fs }

def setTopKey (st : PState) (k : Str) (v : JsVal) : PState :=
  setTop st (setKey (topObj st) k v)

def pushFrame (st : PState) (f : Frame) : PState :=
  { st with frames := f :: st.frames }

/-- Pop frames whose indent is `≥ w`, writing each child object back
into its parent slot (a no-op relative to the reference semantics of the
JS original, where frames alias slots of the result). -/
def unwindGo (w : Nat) (f : Frame) : List Frame → JsObj → List Frame × JsObj
  | [], root =>
    if w ≤ f.indent then ([], setKey root f.key (.obj f.obj)) else ([f], root)
  | g :: fs, root =>
    if w ≤ f.indent then
      unwindGo w { g with obj := setKey g.obj f.key (.obj f.obj) } fs root
    else (f :: g :: fs, root)

def unwindAux (w : Nat) : List Frame → JsObj → List Frame × JsObj
  | [], root => ([], root)
  | f :: fs, root => unwindGo w f fs root

def unwindState (st : PState) (w : Nat) : PState :=
  let p := unwindAux w st.frames st.root
  { st with frames := p.1, root := p.2 }

/-- `SimpleYamlParser.handleKeyValue`. -/
def handleKeyValue (st : PState) (indent : Nat) (key value : Str) : PState :=
  let st0 := unwindState st indent
  if value = [] then
    pushFrame (setTopKey st0 key (.obj [])) ⟨[], indent, key⟩
  else
    setTopKey st0 key (parseValue value)

def itemsKey : Str := "items".data

/-- Shape test for `typeof x === 'object'` on non-null stored values. -/
def isContainer : JsVal → Bool
  | .arr _ => true
  | .obj _ => true
  | _ => false

/-- `Object.keys(x).length` for container values. -/
def containerLen : JsVal → Nat
  | .arr l => l.length
  | .obj o => o.length
  | _ => 0

/-- The `parent['items'] = parent['items'] || []; targetArray.push(...)`
fallback; pushing onto a truthy non-array raises a `TypeError`. -/
def itemsBranch (st0 : PState) (parent : JsObj) (pv : JsVal) : Except Unit PState :=
  match getKey parent itemsKey with
  | some v =>
    if truthy v then
      match v with
      | .arr l => .ok (setTopKey st0 itemsKey (.arr (l ++ [pv])))
      | _ => .error ()
    else .ok (setTopKey st0 itemsKey (.arr [pv]))
  | none => .ok (setTopKey st0 itemsKey (.arr [pv]))

/-- A canonical array-index property name (ES: the decimal form of an
integer `0 ≤ i < 2^32 - 1` with no leading zero): JS enumerates these
before all other keys, in ascending numeric order. -/
def isArrayIndexKey (k : Str) : Bool :=
  (k == ['0'] || (!k.isEmpty && !(k.head? == some '0') && k.all isDigitCh)) &&
  digitsVal k < 4294967295

def insertIdxKey (k : Str) : List Str → List Str
  | [] => [k]
  | k' :: ks =>
    if digitsVal k ≤ digitsVal k' then k :: k' :: ks else k' :: insertIdxKey k ks

def sortIdxKeys : List Str → List Str
  | [] => []
  | k :: ks => insertIdxKey k (sortIdxKeys ks)

/-- `Object.keys` enumeration order: array-index keys first in
ascending numeric order, then the remaining keys in insertion order. -/
def jsKeys (o : JsObj) : List Str :=
  sortIdxKeys ((o.map Prod.fst).filter isArrayIndexKey) ++
    (o.map Prod.fst).filter (fun k => !isArrayIndexKey k)

/-- `parent[lastKey] === null || parent[lastKey] === undefined ||
(typeof parent[lastKey] === 'object' && Object.keys(...).length === 0)`. -/
def emptyish : Option JsVal → Bool
  | none => true
  | some .null => true
  | some (.arr l) => l.isEmpty
  | some (.obj o) => o.isEmpty
  | some _ => false

/-- The `lastKey` / `items` fallback of `handleArrayItem`. -/
def arrayFallback (st0 : PState) (parent : JsObj) (pv : JsVal) : Except Unit PState :=
  match (jsKeys parent).getLast? with
  | some lk =>
    if !lk.isEmpty && emptyish (getKey parent lk) then
      .ok (setTopKey st0 lk (.arr [pv]))
    else itemsBranch st0 parent pv
  | none => itemsBranch st0 parent pv

/-- `SimpleYamlParser.handleArrayItem` (`value` is already the trimmed
payload after `"- "`). -/
def handleArrayItem (st : PState) (indent : Nat) (value : Str)
    (arrayKey : Option Str) : Except Unit PState :=
  let st0 := unwindState st indent
  let parent := topObj st0
  let pv := parseValue value
  match arrayKey with
  | some k =>
    if k ≠ [] && truthyOpt (getKey parent k) then
      let old := match getKey parent k with | some (.arr l) => l | _ => []
      .ok (setTopKey st0 k (.arr (old ++ [pv])))
    else arrayFallback st0 parent pv
  | none => arrayFallback st0 parent pv

/-- Does the next physical line (when present) start, trimmed, with
`"- "`? -/
def nextDash : Option Str → Bool
  | none => false
  | some nl => dashSpace (jsTrim nl)

/-- One iteration of the `parse` loop on a single line, with the raw
next physical line for the look-ahead. -/
def stepLine (line : Str) (next? : Option Str) (st : PState) : Except Unit PState :=
  let t := jsTrim line
  if t = [] then .ok st
  else if t.head? = some '#' then .ok st
  else
    let indent := getIndentLevel line
    if dashSpace t then
      handleArrayItem st indent (jsTrim (t.drop 2)) st.cak
    else
      match firstColon t with
      | some ci =>
        if 0 < ci then
          let key := jsTrim (t.take ci)
          let value := jsTrim (t.drop (ci + 1))
          let st' := if value = [] && nextDash next? then { st with cak := some key } else st
          .ok (handleKeyValue st' indent key value)
        else .ok st
      | none => .ok st

def parseLinesE : List Str → PState → Except Unit PState
  | [], st => .ok st
  | l :: ls, st =>
    match stepLine l ls.head? st with
    | .error e => .error e
    | .ok st' => parseLinesE ls st'

/-- `SimpleYamlParser.parse`: split into lines, run the machine, return
the root object (all frames resolved). -/
def parseYaml (s : Str) : Except Unit JsObj :=
  (parseLinesE (splitNL s) initState).map (fun st => (unwindState st 0).root)

/-- `value.replace(/"/g, '\\"')`. -/
def escapeQ : Str → Str
  | [] => []
  | c :: cs => if c = '\x22' then '\\' :: '\x22' :: escapeQ cs else c :: escapeQ cs

/-- Does `formatValue` wrap this string in double quotes? -/
def needsQuoting (s : Str) : Bool :=
  s.contains ':' || s.contains '#' || s.contains '\n'
    || s.head? = some '-' || s.head? = some '\x5b' || s.head? = some '\x7b'

/-- Decimal digits of a natural number, most significant first
(fuel-structured so that it reduces definitionally; `n + 1` units of
fuel always suffice since the argument at least halves each step). -/
def natDigitsF : Nat → Nat → Str
  | 0, _ => []
  | f + 1, n =>
    if n < 10 then [Char.ofNat (n + '0'.toNat)]
    else natDigitsF f (n / 10) ++ [Char.ofNat (n % 10 + '0'.toNat)]

def natDigits (n : Nat) : Str := natDigitsF (n + 1) n

/-- JS `Number.prototype.toString` on integers, as exact decimal
digits — what JS prints for every safe integer (`WScalar` keeps larger
magnitudes, where JS switches to exponential notation, out of every
theorem's scope). -/
def intToString (n : Int) : Str :=
  if n < 0 then '-' :: natDigits n.natAbs else natDigits n.toNat

/-- `SimpleYamlParser.formatValue`.  `stringify` never passes arrays or
objects to it (they are handled by its own branches), so those cases —
`JSON.stringify` in the source — are left as the empty string here.  The
`float` case stands for JS number printing, faithful only for literals
that print back as themselves; theorems keep floats out of scope. -/
def formatValue : JsVal → Str
  | .null => "null".data
  | .bool true => "true".data
  | .bool false => "false".data
  | .int n => intToString n
  | .float lit => lit
  | .str s => if needsQuoting s then '\x22' :: (escapeQ s ++ ['\x22']) else s
  | .arr _ => []
  | .obj _ => []

def spacesOf (ind : Nat) : Str := List.replicate (2 * ind) ' '

mutual
/-- `SimpleYamlParser.stringify(obj, indent)`. -/
def stringifyVal : JsVal → Nat → Str
  | .arr items, ind => stringifyTopItems items ind
  | .obj entries, ind => stringifyEntries entries ind
  | _, _ => []

/-- The `Array.isArray(obj)` loop of `stringify`. -/
def stringifyTopItems : List JsVal → Nat → Str
  | [], _ => []
  | it :: rest, ind =>
    (if isContainer it then
      spacesOf ind ++ ('-' :: ' ' :: '\n' :: stringifyVal it (ind + 1))
    else
      spacesOf ind ++ ('-' :: ' ' :: (formatValue it ++ ['\n']))) ++
    stringifyTopItems rest ind

/-- The `Object.entries(obj)` loop of `stringify`. -/
def stringifyEntries : List (Str × JsVal) → Nat → Str
  | [], _ => []
  | (k, v) :: rest, ind =>
    (match v with
     | .arr items =>
       spacesOf ind ++ (k ++ (':' :: '\n' :: stringifyUnderItems items ind))
     | .obj o =>
       spacesOf ind ++ (k ++ (':' :: '\n' :: stringifyEntries o (ind + 1)))
     | other =>
       spacesOf ind ++ (k ++ (':' :: ' ' :: (formatValue other ++ ['\n'])))) ++
    stringifyEntries rest ind

/-- The `Array.isArray(value)` loop inside the entries loop: items two
spaces deeper, nested containers stringified at `indent + 2`. -/
def stringifyUnderItems : List JsVal → Nat → Str
  | [], _ => []
  | it :: rest, ind =>
    (if isContainer it then
      spacesOf ind ++ (' ' :: ' ' :: '-' :: ' ' :: '\n' :: stringifyVal it (ind + 2))
    else
      spacesOf ind ++ (' ' :: ' ' :: '-' :: ' ' :: (formatValue it ++ ['\n']))) ++
    stringifyUnderItems rest ind
end

/-! ### Vocabulary for the round-trip theorems

`GoodKey` and `WScalar` carve out the key strings and scalar leaves whose
encoded line survives the decoder's trimming, classification and
coercion; `GoodE` additionally demands unique keys per mapping and
excludes sequences (whose encoding the decoder provably does not invert,
see the C2 theorem).  `normVal` is re-coercion of every scalar leaf
through `formatValue`/`parseValue` — what one decode/encode cycle does
to leaves of such values. -/

def isFloatV : JsVal → Bool
  | .float _ => true
  | _ => false

/-- A mapping key that the codec transports faithfully: nonempty,
trim-stable, free of `':'` and newlines, not classified as a comment or
sequence item, and not an integer-like JS property name (those would be
enumerated out of insertion order by JS, which the association-list
model does not reproduce). -/
def GoodKey (k : Str) : Bool :=
  !k.isEmpty && (jsTrim k == k) && !k.contains ':' && !k.contains '\n' &&
  !(k.head? == some '#') && !dashSpace k && !k.all isDigitCh

/-- Integer leaves within the JS safe-integer range: there both the
model's exact decimal printing and its exact `parseInt` coincide with
the program (JS switches to exponential notation at 1e21 and loses
precision beyond 2^53, neither of which is modelled). -/
def intSafe : JsVal → Bool
  | .int n => n.natAbs < 2 ^ 53
  | _ => true

/-- A scalar leaf whose formatted token is a nonempty, trim-stable,
newline-free string that re-formats to itself after re-parsing; floats
(and tokens that would re-parse to floats) are excluded because JS
double printing is not modelled, and integers — both the leaf and the
re-parsed token — are restricted to the safe range where the model's
digit strings are exactly what JS prints and parses. -/
def WScalar (v : JsVal) : Bool :=
  !isContainer v && !isFloatV v &&
  (let t := formatValue v
   !t.isEmpty && (jsTrim t == t) && !t.contains '\n' &&
   !isFloatV (parseValue t) && (formatValue (parseValue t) == t) &&
   intSafe v && intSafe (parseValue t))

/-- Mappings (no sequences) with good keys, unique per level, and good
scalar leaves. -/
inductive GoodE : List (Str × JsVal) → Prop
  | nil : GoodE []
  | scalar {k : Str} {v : JsVal} {es : List (Str × JsVal)} :
      GoodKey k = true → WScalar v = true → k ∉ es.map Prod.fst →
      GoodE es → GoodE ((k, v) :: es)
  | object {k : Str} {o es : List (Str × JsVal)} :
      GoodKey k = true → GoodE o → k ∉ es.map Prod.fst →
      GoodE es → GoodE ((k, .obj o) :: es)

mutual
/-- One decode∘encode cycle on leaves: every scalar is re-coerced
through its formatted token; mapping structure is untouched. -/
def normVal : JsVal → JsVal
  | .obj o => .obj (normEntries o)
  | .arr l => .arr l
  | v => parseValue (formatValue v)

def normEntries : List (Str × JsVal) → List (Str × JsVal)
  | [] => []
  | (k, v) :: es => (k, normVal v) :: normEntries es
end

/-! ### Line-level view of the encoder -/

/-- `joinNL ls` is `ls` with `'\n'` terminating every line — the exact
string the encoder builds. -/
def joinNL : List Str → Str
  | [] => []
  | l :: ls => l ++ '\n' :: joinNL ls

mutual
def emitVal : JsVal → Nat → List Str
  | .arr items, ind => emitTopItems items ind
  | .obj entries, ind => emitEntries entries ind
  | _, _ => []

def emitTopItems : List JsVal → Nat → List Str
  | [], _ => []
  | it :: rest, ind =>
    (if isContainer it then (spacesOf ind ++ ['-', ' ']) :: emitVal it (ind + 1)
     else [spacesOf ind ++ ('-' :: ' ' :: formatValue it)]) ++ emitTopItems rest ind

def emitEntries : List (Str × JsVal) → Nat → List Str
  | [], _ => []
  | (k, v) :: rest, ind =>
    (match v with
     | .arr items => (spacesOf ind ++ (k ++ [':'])) :: emitUnderItems items ind
     | .obj o => (spacesOf ind ++ (k ++ [':'])) :: emitEntries o (ind + 1)
     | other => [spacesOf ind ++ (k ++ (':' :: ' ' :: formatValue other))]) ++
    emitEntries rest ind

def emitUnderItems : List JsVal → Nat → List Str
  | [], _ => []
  | it :: rest, ind =>
    (if isContainer it then (spacesOf ind ++ [' ', ' ', '-', ' ']) :: emitVal it (ind + 2)
     else [spacesOf ind ++ (' ' :: ' ' :: '-' :: ' ' :: formatValue it)]) ++
    emitUnderItems rest ind
end

/-! ### The machine's trajectory over encoded good entries -/

/-- What the decoder state becomes after consuming the encoded lines of
`es` at nesting depth `ind` (proved as such in the round-trip lemmas):
each entry line first unwinds to width `2 * ind`, a scalar entry writes
the re-coerced leaf into the top object, a mapping entry writes an empty
placeholder and pushes a frame for it. -/
def procE : PState → List (Str × JsVal) → Nat → PState
  | st, [], _ => st
  | st, (k, v) :: es, ind =>
    let st0 := unwindState st (2 * ind)
    match v with
    | .obj o =>
      let st1 := pushFrame (setTopKey st0 k (.obj [])) ⟨[], 2 * ind, k⟩
      procE (procE st1 o (ind + 1)) es ind
    | _ => procE (setTopKey st0 k (parseValue (formatValue v))) es ind
  termination_by _ es _ => sizeOf es

/-- Folding the (re-coerced) entries into an object with the JS
assignment semantics. -/
def foldInsert (o : JsObj) (es : List (Str × JsVal)) : JsObj :=
  es.foldl (fun acc kv => setKey acc kv.1 (normVal kv.2)) o

/-- All open frames sit strictly left of width `w`, so a line at width
`w` pops none of them. -/
def cleanAt (st : PState) (w : Nat) : Prop := ∀ f ∈ st.frames, f.indent < w

/-! ### Tab expansion (claim C8) -/

def isIndentCh (c : Char) : Bool := c = ' ' || c = '\t'

/-- Replace every leading tab of a line by two spaces (the region the
claim speaks about: up to the first character that is neither a space
nor a tab). -/
def expandLine (l : Str) : Str :=
  (l.takeWhile isIndentCh).flatMap (fun c => if c = '\t' then [' ', ' '] else [c]) ++
    l.dropWhile isIndentCh

def intercalNL : List Str → Str
  | [] => []
  | [l] => l
  | l :: ls => l ++ '\n' :: intercalNL ls

/-- The same document with every leading tab of every line replaced by
two spaces. -/
def expandTabsDoc (s : Str) : Str := intercalNL ((splitNL s).map expandLine)

/-! ## Theorems -/

/-! ### String toolkit -/

theorem dropWhile_all_append {p : Char → Bool} {xs : Str} (ys : Str)
    (h : ∀ a ∈ xs, p a = true) :
    (xs ++ ys).dropWhile p = ys.dropWhile p := by
  induction xs with
  | nil => rfl
  | cons c cs ih =>
    simp only [List.cons_append, List.dropWhile_cons, h c (by simp)]
    exact ih fun a ha => h a (by simp [ha])

theorem dropWhile_eq_self_of_head {p : Char → Bool} {l : Str}
    (h : ∀ c, l.head? = some c → p c = false) : l.dropWhile p = l := by
  cases l with
  | nil => rfl
  | cons c cs => simp [List.dropWhile_cons, h c rfl]

theorem dropWhile_len_le (p : Char → Bool) (l : Str) :
    (l.dropWhile p).length ≤ l.length := by
  induction l with
  | nil => simp
  | cons c cs ih =>
    rw [List.dropWhile_cons]
    split
    · exact Nat.le_trans ih (by simp)
    · simp

theorem trimR_length_le (l : Str) : (trimR l).length ≤ l.length := by
  induction l with
  | nil => simp [trimR]
  | cons c cs ih =>
    simp only [trimR]
    split
    · simp
    · simpa using ih

theorem dropWhile_length_eq {p : Char → Bool} {l : Str}
    (h : (l.dropWhile p).length = l.length) : l.dropWhile p = l := by
  induction l with
  | nil => rfl
  | cons c cs ih =>
    by_cases hc : p c
    · exfalso
      have hle := dropWhile_len_le p cs
      simp [List.dropWhile_cons, hc] at h
      omega
    · simp [List.dropWhile_cons, hc]

theorem jsTrim_parts {t : Str} (h : jsTrim t = t) :
    t.dropWhile isWs = t ∧ trimR t = t := by
  unfold jsTrim at h
  have h1 : (t.dropWhile isWs).length = t.length := by
    have l1 := trimR_length_le (t.dropWhile isWs)
    have l2 := dropWhile_len_le isWs t
    have := congrArg List.length h
    omega
  have hd := dropWhile_length_eq h1
  rw [hd] at h
  exact ⟨hd, h⟩

theorem head_not_ws {k : Str} (hne : k ≠ []) (h : k.dropWhile isWs = k) :
    ∀ c, k.head? = some c → isWs c = false := by
  intro c hc
  cases k with
  | nil => exact absurd rfl hne
  | cons c' cs =>
    cases hc
    cases hw : isWs c
    · rfl
    · exfalso
      rw [List.dropWhile_cons, if_pos hw] at h
      have h1 := dropWhile_len_le isWs cs
      have h2 := congrArg List.length h
      simp at h2
      omega

theorem trimR_append_of_ne {l₂ : Str} (l₁ : Str) (h : trimR l₂ ≠ []) :
    trimR (l₁ ++ l₂) = l₁ ++ trimR l₂ := by
  induction l₁ with
  | nil => rfl
  | cons c cs ih =>
    simp only [List.cons_append, trimR, List.append_eq, ih]
    have hx : ¬ (cs ++ trimR l₂ = []) := by
      intro hx
      exact h (List.append_eq_nil.mp hx).2
    simp [hx]

theorem jsTrim_line {k r : Str} (hk : jsTrim k = k) (hne : k ≠ [])
    (hr : trimR r ≠ []) (w : Nat) :
    jsTrim (List.replicate w ' ' ++ (k ++ r)) = k ++ trimR r := by
  obtain ⟨hkd, _⟩ := jsTrim_parts hk
  unfold jsTrim
  rw [dropWhile_all_append (k ++ r) (by simp [isWs])]
  rw [dropWhile_eq_self_of_head (l := k ++ r) ?side]
  · exact trimR_append_of_ne k hr
  · intro c hc
    cases k with
    | nil => exact absurd rfl hne
    | cons c' cs =>
      simp at hc
      exact head_not_ws hne hkd c (by simp [hc])

theorem getIndentLevel_other {c : Char} {l : Str} (h1 : c ≠ ' ') (h2 : c ≠ '\t') :
    getIndentLevel (c :: l) = 0 := by
  rw [getIndentLevel.eq_def]
  split
  · simp_all
  · simp_all
  · rfl

theorem getIndentLevel_replicate {l : Str} (w : Nat) :
    getIndentLevel (List.replicate w ' ' ++ l) = w + getIndentLevel l := by
  induction w with
  | zero => simp
  | succ n ih =>
    simp only [List.replicate_succ, List.cons_append]
    rw [show getIndentLevel (' ' :: (List.replicate n ' ' ++ l)) =
        getIndentLevel (List.replicate n ' ' ++ l) + 1 from rfl, ih]
    omega

theorem getIndentLevel_line {k : Str} (r : Str) (w : Nat) (hne : k ≠ [])
    (hk : jsTrim k = k) :
    getIndentLevel (List.replicate w ' ' ++ (k ++ r)) = w := by
  rw [getIndentLevel_replicate]
  cases k with
  | nil => exact absurd rfl hne
  | cons c cs =>
    have hc := head_not_ws hne (jsTrim_parts hk).1 c rfl
    simp only [isWs, Bool.or_eq_false_iff, decide_eq_false_iff_not] at hc
    rw [List.cons_append, getIndentLevel_other hc.1.1.1.1.1 hc.1.1.1.1.2]
    omega

theorem firstColon_append {k : Str} (r : Str) (hk : ¬ ':' ∈ k) :
    firstColon (k ++ ':' :: r) = some k.length := by
  induction k with
  | nil => simp [firstColon]
  | cons c cs ih =>
    have hc : c ≠ ':' := by intro h; exact hk (by simp [h])
    have ih' := ih (fun h => hk (by simp [h]))
    simp only [List.cons_append, firstColon, if_neg hc, List.append_eq, ih',
      Option.map_some']
    simp

theorem dashSpace_key_line {k : Str} (r : Str) (hne : k ≠ [])
    (hd : dashSpace k = false) : dashSpace (k ++ ':' :: r) = false := by
  match k, hne with
  | [c], _ =>
    show dashSpace (c :: ':' :: r) = false
    rw [dashSpace.eq_def]
    split <;> simp_all
  | c₁ :: c₂ :: cs, _ =>
    show dashSpace (c₁ :: c₂ :: (cs ++ ':' :: r)) = false
    rw [dashSpace.eq_def] at hd ⊢
    split <;> split at hd <;> simp_all

theorem head?_append_of_ne {k : Str} (r : Str) (hne : k ≠ []) :
    (k ++ r).head? = k.head? := by
  cases k with
  | nil => exact absurd rfl hne
  | cons c cs => rfl

/-! ### Unpacking the goodness predicates -/

theorem goodKey_parts {k : Str} (hk : GoodKey k = true) :
    k ≠ [] ∧ jsTrim k = k ∧ ':' ∉ k ∧ '\n' ∉ k ∧
    k.head? ≠ some '#' ∧ dashSpace k = false := by
  unfold GoodKey at hk
  simp only [Bool.and_eq_true] at hk
  obtain ⟨⟨⟨⟨⟨⟨h1, h2⟩, h3⟩, h4⟩, h5⟩, h6⟩, -⟩ := hk
  refine ⟨by simp_all, eq_of_beq h2, by simp_all, by simp_all, by simp_all, by simp_all⟩

theorem wscalar_parts {v : JsVal} (hv : WScalar v = true) :
    isContainer v = false ∧ isFloatV v = false ∧
    formatValue v ≠ [] ∧ jsTrim (formatValue v) = formatValue v ∧
    '\n' ∉ formatValue v ∧ isFloatV (parseValue (formatValue v)) = false ∧
    formatValue (parseValue (formatValue v)) = formatValue v := by
  unfold WScalar at hv
  simp only [Bool.and_eq_true] at hv
  obtain ⟨⟨h1, h2⟩, ⟨⟨⟨⟨⟨⟨h3, h4⟩, h5⟩, h6⟩, h7⟩, -⟩, -⟩⟩ := hv
  refine ⟨by simp_all, by simp_all, by simp_all, eq_of_beq h4, by simp_all,
    by simp_all, eq_of_beq h7⟩

/-! ### The decode step on well-formed key-value lines -/

theorem jsTrim_space_cons {t : Str} (ht : jsTrim t = t) :
    jsTrim (' ' :: t) = t := by
  obtain ⟨h1, _⟩ := jsTrim_parts ht
  unfold jsTrim at ht ⊢
  rw [List.dropWhile_cons, if_pos (by simp [isWs]), h1]
  rw [h1] at ht
  exact ht

/-- The scalar entry line `spaces ++ key ++ ": " ++ token`: the machine
unwinds to the line's width and assigns the coerced token. -/
theorem stepLine_keyvalue (w : Nat) {k t : Str} (next : Option Str) (st : PState)
    (hk : GoodKey k = true) (ht : jsTrim t = t) (hne : t ≠ []) :
    stepLine (List.replicate w ' ' ++ (k ++ ':' :: ' ' :: t)) next st =
      .ok (setTopKey (unwindState st w) k (parseValue t)) := by
  obtain ⟨hkne, hktrim, hkcolon, _, hkhash, hkdash⟩ := goodKey_parts hk
  have htrimR : trimR t ≠ [] := by
    rw [(jsTrim_parts ht).2]
    exact hne
  have htr : trimR (':' :: ' ' :: t) = ':' :: ' ' :: t := by
    have h2 := trimR_append_of_ne ([':', ' ']) htrimR
    simpa [(jsTrim_parts ht).2] using h2
  have hline : jsTrim (List.replicate w ' ' ++ (k ++ ':' :: ' ' :: t)) =
      k ++ ':' :: ' ' :: t := by
    have := jsTrim_line (k := k) (r := ':' :: ' ' :: t) hktrim hkne
      (by rw [htr]; simp) w
    rw [this, htr]
  have hdrop : (k ++ ':' :: ' ' :: t).drop (k.length + 1) = ' ' :: t := by
    have hassoc : k ++ ':' :: ' ' :: t = (k ++ [':']) ++ (' ' :: t) := by simp
    have hlen : k.length + 1 = (k ++ [':']).length := by simp
    rw [hassoc, hlen, List.drop_left]
  unfold stepLine
  rw [hline]
  rw [if_neg (by simp)]
  rw [if_neg (by rw [head?_append_of_ne _ hkne]; exact hkhash)]
  rw [getIndentLevel_line (':' :: ' ' :: t) w hkne hktrim]
  rw [show dashSpace (k ++ ':' :: ' ' :: t) = false from
    dashSpace_key_line (' ' :: t) hkne hkdash]
  simp only [Bool.false_eq_true, if_false]
  simp only [firstColon_append (' ' :: t) hkcolon]
  rw [if_pos (List.length_pos.mpr hkne)]
  rw [hdrop, List.take_left, hktrim, jsTrim_space_cons ht]
  rw [if_neg (by simp [hne])]
  unfold handleKeyValue
  rw [if_neg hne]

/-- The mapping-opening line `spaces ++ key ++ ":"`: the machine records
the pending-array key when the next physical line is a sequence item,
inserts the placeholder, and pushes a frame for it. -/
theorem stepLine_keyempty (w : Nat) {k : Str} (next : Option Str) (st : PState)
    (hk : GoodKey k = true) :
    stepLine (List.replicate w ' ' ++ (k ++ [':'])) next st =
      .ok (pushFrame
            (setTopKey
              (unwindState (if nextDash next then { st with cak := some k } else st) w)
              k (.obj []))
            ⟨[], w, k⟩) := by
  obtain ⟨hkne, hktrim, hkcolon, _, hkhash, hkdash⟩ := goodKey_parts hk
  have hline : jsTrim (List.replicate w ' ' ++ (k ++ [':'])) = k ++ [':'] := by
    have := jsTrim_line (k := k) (r := [':']) hktrim hkne (by decide) w
    simpa using this
  unfold stepLine
  rw [hline]
  rw [if_neg (by simp)]
  rw [if_neg (by rw [head?_append_of_ne _ hkne]; exact hkhash)]
  rw [getIndentLevel_line [':'] w hkne hktrim]
  rw [show dashSpace (k ++ [':']) = false from
    dashSpace_key_line [] hkne hkdash]
  simp only [Bool.false_eq_true, if_false]
  simp only [show (k ++ [':']) = k ++ ':' :: [] from rfl, firstColon_append [] hkcolon]
  rw [if_pos (List.length_pos.mpr hkne)]
  have hdrop : (k ++ ':' :: []).drop (k.length + 1) = [] := by
    have hlen : k.length + 1 = (k ++ [':']).length := by simp
    rw [show k ++ ':' :: [] = (k ++ [':']) ++ [] from by simp, hlen, List.drop_left]
  rw [hdrop, List.take_left, hktrim]
  show Except.ok (handleKeyValue _ w k []) = _
  unfold handleKeyValue
  rw [if_pos rfl]
  cases hnd : nextDash next <;> simp [hnd, jsTrim, trimR]

/-! ### The scan-global pending-array key across steps -/

theorem setTop_cak (st : PState) (o : JsObj) : (setTop st o).cak = st.cak := by
  unfold setTop
  split <;> rfl

theorem setTopKey_cak (st : PState) (k : Str) (v : JsVal) :
    (setTopKey st k v).cak = st.cak := setTop_cak st _

theorem unwindState_cak (st : PState) (w : Nat) :
    (unwindState st w).cak = st.cak := rfl

theorem itemsBranch_cak {st0 : PState} {parent : JsObj} {pv : JsVal} {st' : PState}
    (h : itemsBranch st0 parent pv = .ok st') : st'.cak = st0.cak := by
  unfold itemsBranch at h
  split at h <;>
    first
    | (cases h; rw [setTopKey_cak])
    | (split at h
       · split at h
         · cases h; rw [setTopKey_cak]
         · cases h
       · cases h; rw [setTopKey_cak])

theorem arrayFallback_cak {st0 : PState} {parent : JsObj} {pv : JsVal} {st' : PState}
    (h : arrayFallback st0 parent pv = .ok st') : st'.cak = st0.cak := by
  unfold arrayFallback at h
  split at h
  · split at h
    · cases h; rw [setTopKey_cak]
    · exact itemsBranch_cak h
  · exact itemsBranch_cak h

theorem handleArrayItem_cak {st : PState} {w : Nat} {v : Str} {ak : Option Str}
    {st' : PState} (h : handleArrayItem st w v ak = .ok st') : st'.cak = st.cak := by
  simp only [handleArrayItem] at h
  have base : (unwindState st w).cak = st.cak := rfl
  split at h
  · split at h
    · cases h; rw [setTopKey_cak]; exact base
    · exact (arrayFallback_cak h).trans base
  · exact (arrayFallback_cak h).trans base

theorem handleKeyValue_cak (st : PState) (w : Nat) (k v : Str) :
    (handleKeyValue st w k v).cak = st.cak := by
  unfold handleKeyValue
  split
  · show (setTopKey (unwindState st w) k (.obj [])).cak = st.cak
    rw [setTopKey_cak]; rfl
  · rw [setTopKey_cak]; rfl

theorem stepLine_cak_some {l : Str} {next : Option Str} {st st' : PState} {k : Str}
    (h1 : st.cak = some k) (h2 : stepLine l next st = .ok st') :
    ∃ k', st'.cak = some k' := by
  simp only [stepLine] at h2
  split at h2
  · cases h2; exact ⟨k, h1⟩
  · split at h2
    · cases h2; exact ⟨k, h1⟩
    · split at h2
      · exact ⟨k, by rw [handleArrayItem_cak h2, h1]⟩
      · split at h2
        · split at h2
          · cases h2
            rw [handleKeyValue_cak]
            split
            · exact ⟨_, rfl⟩
            · exact ⟨k, h1⟩
          · cases h2; exact ⟨k, h1⟩
        · cases h2; exact ⟨k, h1⟩

/-! ### Steps that cannot fault -/

theorem stepLine_no_dash_ok {l : Str} (next : Option Str) (st : PState)
    (h : dashSpace (jsTrim l) = false) : ∃ st', stepLine l next st = .ok st' := by
  simp only [stepLine, h]
  split
  · exact ⟨st, rfl⟩
  · split
    · exact ⟨st, rfl⟩
    · simp only [Bool.false_eq_true, if_false]
      split
      · split
        · exact ⟨_, rfl⟩
        · exact ⟨st, rfl⟩
      · exact ⟨st, rfl⟩

theorem parseLinesE_no_dash_ok (ls : List Str) (st : PState)
    (h : ∀ l ∈ ls, dashSpace (jsTrim l) = false) :
    ∃ st', parseLinesE ls st = .ok st' := by
  induction ls generalizing st with
  | nil => exact ⟨st, rfl⟩
  | cons l ls ih =>
    obtain ⟨st1, h1⟩ := stepLine_no_dash_ok (ls.head?) st (h l (by simp))
    obtain ⟨st2, h2⟩ := ih st1 (fun l' hl' => h l' (by simp [hl']))
    refine ⟨st2, ?_⟩
    unfold parseLinesE
    rw [h1]
    exact h2

/-! ### Claim theorems: concrete behaviour -/

/-- Claim C2 (code bug): on `"items:\n  - x\n  - y\n"` the decoder does
not bind the sequence to `items`; the `items:` line pushes a frame for
an empty placeholder object, the indented `- ` lines land inside that
placeholder under a synthesized inner `items` key, so the result is the
nested `⦃items: ⦃items: [x, y]⦄⦄` — the repository's own round-trip
test (`test-comprehensive.ts`, `Array.isArray` check on a
stringify→parse cycle of nested lists) expects the flat form. -/
theorem c2_decode_items_nested :
    parseYaml "items:\n  - x\n  - y\n".data =
      .ok [("items".data,
            .obj [("items".data, .arr [.str "x".data, .str "y".data])])] := rfl

/-- Claim C3 (counterexample): decode is not fault-free on every input —
on `"items: 5\n- a\n"` the sequence-item fallback finds the truthy
non-array `5` under `items` and `targetArray.push` raises a
`TypeError`. -/
theorem c3_counterexample : parseYaml "items: 5\n- a\n".data = .error () := rfl

/-- Claim C3 (amended): decode returns a mapping root and raises no
fault on any document none of whose lines is a sequence item; the empty
document decodes to the empty mapping. -/
theorem c3_no_fault_amended (s : Str)
    (h : ∀ l ∈ splitNL s, dashSpace (jsTrim l) = false) :
    (∃ m, parseYaml s = .ok m) ∧ parseYaml [] = .ok [] := by
  refine ⟨?_, rfl⟩
  obtain ⟨st', h'⟩ := parseLinesE_no_dash_ok (splitNL s) initState h
  exact ⟨(unwindState st' 0).root, by unfold parseYaml; rw [h']; rfl⟩

/-- Witness for the amended C3 on a concrete dash-free document. -/
theorem c3_no_fault_amended_witness :
    (∃ m, parseYaml "a: 1\nnested:\n  b: 2\n".data = .ok m) ∧
    parseYaml [] = .ok [] :=
  c3_no_fault_amended "a: 1\nnested:\n  b: 2\n".data (by decide)

/-- Claim C1 (counterexample): the round trip loses string typing — the
mapping `⦃a: String "true"⦄` encodes to `"a: true\n"`, which decodes to
`⦃a: Bool true⦄`. -/
theorem c1_counterexample :
    parseYaml (stringifyVal (.obj [("a".data, .str "true".data)]) 0) ≠
      .ok [("a".data, .str "true".data)] := by
  have h : parseYaml (stringifyVal (.obj [("a".data, .str "true".data)]) 0) =
      .ok [("a".data, .bool true)] := rfl
  rw [h]
  simp

/-- Claim C4 (counterexample): removing a malformed line can change the
result, because the one-line look-ahead that arms the pending-array key
sees the malformed line: with `garbage` between `k2:` and `- a`, the
item is appended to the stale pending key `p` instead of `k2`. -/
theorem c4_counterexample :
    parseYaml "p:\n- x\nk2:\ngarbage\n- a\n".data ≠
      parseYaml "p:\n- x\nk2:\n- a\n".data := by
  have h1 : parseYaml "p:\n- x\nk2:\ngarbage\n- a\n".data =
      .ok [("p".data, .arr [.str "x".data, .str "a".data]), ("k2".data, .obj [])] := rfl
  have h2 : parseYaml "p:\n- x\nk2:\n- a\n".data =
      .ok [("p".data, .arr [.str "x".data]), ("k2".data, .arr [.str "a".data])] := rfl
  rw [h1, h2]
  simp

/-- Claim C4 (amended): a malformed line — non-blank, non-comment, no
`"- "` prefix, no `':'` at positive index — is silently skipped: the
step neither faults nor changes the decoder state.  (Removing such a
line may still change the final result through the next-line look-ahead,
see the counterexample.) -/
theorem c4_malformed_skip (l : Str) (next : Option Str) (st : PState)
    (h1 : jsTrim l ≠ []) (h2 : (jsTrim l).head? ≠ some '#')
    (h3 : dashSpace (jsTrim l) = false)
    (h4 : ∀ ci, firstColon (jsTrim l) = some ci → ci = 0) :
    stepLine l next st = .ok st := by
  unfold stepLine
  rw [if_neg h1, if_neg h2, h3]
  simp only [Bool.false_eq_true, if_false]
  split
  · rename_i ci hci
    rw [if_neg (by rw [h4 ci hci]; omega)]
  · rfl

/-- Witness for the amended C4 at the concrete malformed line
`"garbage"`. -/
theorem c4_malformed_skip_witness :
    stepLine "garbage".data (some "- a".data) initState = .ok initState :=
  c4_malformed_skip "garbage".data (some "- a".data) initState
    (by decide) (by decide) (by decide) (by decide)

/-- Claim C5 (counterexample): the key-value line with empty value whose
next line is a sequence item does push a frame — after stepping
`"items:"` with look-ahead `"  - x"` the stack holds one frame, not
zero as the claim's "pushes no frame yet" asserts. -/
theorem c5_counterexample :
    (stepLine "items:".data (some "  - x".data) initState).map
      (fun st => st.frames.length) = .ok 1 ∧
    (stepLine "items:".data (some "  - x".data) initState).map
      (fun st => st.frames.length) ≠ .ok 0 := by
  refine ⟨rfl, ?_⟩
  intro hx
  have h : (stepLine "items:".data (some "  - x".data) initState).map
      (fun st => st.frames.length) = .ok 1 := rfl
  rw [h] at hx
  simp at hx

/-- Claim C5 (amended): on `key:` with a `"- "` look-ahead the decoder
records the key as pending-array, inserts the empty placeholder — and
also pushes a frame for the placeholder at the key line's indent.  The
conversion of the placeholder into the target sequence therefore only
happens when the following sequence-item line's indent unwinds that
frame (e.g. at equal indent, second conjunct); a deeper-indented item
lands inside the placeholder instead (see C2). -/
theorem c5_pending_array_amended (w : Nat) (k : Str) (st : PState)
    (next : Option Str) (hk : GoodKey k = true) (hn : nextDash next = true) :
    stepLine (List.replicate w ' ' ++ (k ++ [':'])) next st =
      .ok (pushFrame
            (setTopKey (unwindState { st with cak := some k } w) k (.obj []))
            ⟨[], w, k⟩) ∧
    parseYaml "k:\n- a\n".data = .ok [("k".data, .arr [.str "a".data])] := by
  refine ⟨?_, rfl⟩
  rw [stepLine_keyempty w next st hk]
  simp [hn]

/-- Witness for the amended C5 at a concrete line and look-ahead. -/
theorem c5_pending_array_amended_witness :
    stepLine (List.replicate 0 ' ' ++ ("items".data ++ [':'])) (some "- x".data)
        initState =
      .ok (pushFrame
            (setTopKey (unwindState { initState with cak := some "items".data } 0)
              "items".data (.obj []))
            ⟨[], 0, "items".data⟩) ∧
    parseYaml "k:\n- a\n".data = .ok [("k".data, .arr [.str "a".data])] :=
  c5_pending_array_amended 0 "items".data initState (some "- x".data)
    (by decide) (by decide)

/-- Claim C6 (counterexample): for a string containing both `':'` and
`'"'` the encoder's escaping is not undone by decode — quote stripping
keeps the backslash, so `":\""` comes back as `":\\\""`. -/
theorem c6_counterexample :
    parseYaml (stringifyVal (.obj [("s".data, .str [':', '\x22'])]) 0) =
      .ok [("s".data, .str [':', '\\', '\x22'])] ∧
    ([':', '\\', '\x22'] : Str) ≠ [':', '\x22'] := ⟨rfl, by decide⟩

/-- Claim C7 (counterexample): re-encoding is not idempotent on every
value — `⦃a: String ""⦄` encodes to `"a: \n"` (trailing space), decodes
to `⦃a: Mapping⦄`, and re-encodes to `"a:\n"`. -/
theorem c7_counterexample :
    parseYaml (stringifyVal (.obj [("a".data, .str [])]) 0) =
      .ok [("a".data, .obj [])] ∧
    stringifyVal (.obj [("a".data, .obj [])]) 0 ≠
      stringifyVal (.obj [("a".data, .str [])]) 0 := ⟨rfl, by decide⟩

/-- Claim C9 (counterexample): when the unwound parent's last key holds
a truthy non-array and the `items` entry itself is that value, the item
is not appended under `items` — the decoder faults (`TypeError` on
`targetArray.push`) instead, here on `"items: x\n- a\n"`. -/
theorem c9_counterexample : parseYaml "items: x\n- a\n".data = .error () := rfl

/-- Claim C9 (amended): with no applicable pending-array key and the
last-key rule not firing — where the last key is the last of the
`Object.keys` enumeration `jsKeys`, array-index keys first — the item
goes under the synthesized `items` key of the unwound parent: created
when absent, appended when already an array (when `items` holds a
truthy non-array the decode faults instead, see the counterexample).
In particular a root-level list decodes to a mapping under `items`;
and a parent with a digit key shows the enumeration order: in
`"a:\n0: 5\n- q\n"` the enumeration's last key is `a` (not `0`),
whose empty placeholder absorbs the item, so `items` is never
synthesized. -/
theorem c9_items_fallback_amended (st : PState) (w : Nat) (value : Str)
    (ak : Option Str)
    (hak : ∀ kk, ak = some kk →
      kk = [] ∨ truthyOpt (getKey (topObj (unwindState st w)) kk) = false)
    (hlast : ∀ lk, (jsKeys (topObj (unwindState st w))).getLast? = some lk →
      lk = [] ∨ emptyish (getKey (topObj (unwindState st w)) lk) = false) :
    (getKey (topObj (unwindState st w)) itemsKey = none →
      handleArrayItem st w value ak =
        .ok (setTopKey (unwindState st w) itemsKey (.arr [parseValue value]))) ∧
    (∀ l, getKey (topObj (unwindState st w)) itemsKey = some (.arr l) →
      handleArrayItem st w value ak =
        .ok (setTopKey (unwindState st w) itemsKey (.arr (l ++ [parseValue value])))) ∧
    parseYaml "- x\n- y\n".data =
      .ok [(itemsKey, .arr [.str "x".data, .str "y".data])] ∧
    parseYaml "a:\n0: 5\n- q\n".data =
      .ok [("a".data, .arr [.str "q".data]), ("0".data, .int 5)] := by
  have hfb : handleArrayItem st w value ak =
      arrayFallback (unwindState st w) (topObj (unwindState st w))
        (parseValue value) := by
    simp only [handleArrayItem]
    cases ak with
    | none => rfl
    | some kk =>
      rcases hak kk rfl with h | h
      · subst h; simp
      · simp [h]
  have hib : arrayFallback (unwindState st w) (topObj (unwindState st w))
      (parseValue value) =
      itemsBranch (unwindState st w) (topObj (unwindState st w))
        (parseValue value) := by
    unfold arrayFallback
    split
    · rename_i lk hl
      rcases hlast lk hl with h | h
      · subst h; simp
      · simp [h]
    · rfl
  refine ⟨?_, ?_, rfl, rfl⟩
  · intro h0
    rw [hfb, hib]
    unfold itemsBranch
    rw [h0]
  · intro l h0
    rw [hfb, hib]
    unfold itemsBranch
    rw [h0]
    simp [truthy]

/-- Witness for the amended C9: in a parent whose last key holds `1`,
the item is appended under a fresh `items` entry. -/
theorem c9_items_fallback_amended_witness :
    handleArrayItem ⟨[("a".data, .int 1)], [], none⟩ 0 "q".data none =
      .ok (setTopKey (unwindState ⟨[("a".data, .int 1)], [], none⟩ 0) itemsKey
        (.arr [parseValue "q".data])) :=
  (c9_items_fallback_amended ⟨[("a".data, .int 1)], [], none⟩ 0 "q".data none
      (fun kk h => nomatch h)
      (fun lk hl => by cases hl; exact Or.inr (by decide))).1 rfl

/-- Claim C10 (confirmed): the pending-array key, once set, is never
cleared — every successful step leaves it set to some key; a
sequence-item line whose unwound parent binds the pending key to a
truthy value appends there, first replacing any non-array value by a
fresh array; and the concrete scan of
`"k:\n- a\nx: 1\nk: 5\n- b\n"` discards the scalar `5` and yields
`⦃k: [b], x: 1⦄`. -/
theorem c10_pending_persistence :
    (∀ (l : Str) (next : Option Str) (st st' : PState) (k : Str),
        st.cak = some k → stepLine l next st = .ok st' →
        ∃ k', st'.cak = some k') ∧
    (∀ (st : PState) (w : Nat) (value k : Str),
        k ≠ [] → truthyOpt (getKey (topObj (unwindState st w)) k) = true →
        handleArrayItem st w value (some k) =
          .ok (setTopKey (unwindState st w) k
            (.arr ((match getKey (topObj (unwindState st w)) k with
                    | some (.arr l) => l
                    | _ => []) ++ [parseValue value])))) ∧
    parseYaml "k:\n- a\nx: 1\nk: 5\n- b\n".data =
      .ok [("k".data, .arr [.str "b".data]), ("x".data, .int 1)] := by
  refine ⟨fun l next st st' k h1 h2 => stepLine_cak_some h1 h2, ?_, rfl⟩
  intro st w value k hk htr
  simp only [handleArrayItem]
  have hcond : (decide (k ≠ []) && truthyOpt (getKey (topObj (unwindState st w)) k))
      = true := by
    simp [hk, htr]
  rw [if_pos hcond]

/-- Witness for C10: a pending key bound to the scalar `5` is replaced
by a fresh array receiving the item. -/
theorem c10_pending_persistence_witness :
    handleArrayItem ⟨[("k".data, .int 5)], [], some "k".data⟩ 0 "b".data
        (some "k".data) =
      .ok (setTopKey (unwindState ⟨[("k".data, .int 5)], [], some "k".data⟩ 0)
        "k".data
        (.arr ((match getKey (topObj (unwindState
                    ⟨[("k".data, .int 5)], [], some "k".data⟩ 0)) "k".data with
                | some (.arr l) => l
                | _ => []) ++ [parseValue "b".data]))) :=
  c10_pending_persistence.2.1 ⟨[("k".data, .int 5)], [], some "k".data⟩ 0
    "b".data "k".data (by decide) (by decide)

/-! ### Tab expansion (claim C8) -/

theorem splitNL_ne_nil (s : Str) : splitNL s ≠ [] := by
  induction s with
  | nil => simp [splitNL]
  | cons c cs ih =>
    unfold splitNL
    split
    · simp
    · split <;> simp

theorem splitNL_no_nl (s : Str) : ∀ l ∈ splitNL s, '\n' ∉ l := by
  induction s with
  | nil => intro l hl; simp [splitNL] at hl; simp [hl]
  | cons c cs ih =>
    intro l hl
    unfold splitNL at hl
    by_cases hc : c = '\n'
    · rw [if_pos hc] at hl
      rcases List.mem_cons.mp hl with h | h
      · simp [h]
      · exact ih l h
    · rw [if_neg hc] at hl
      rcases hsp : splitNL cs with - | ⟨l₀, ls₀⟩
      · exact absurd hsp (splitNL_ne_nil cs)
      · rw [hsp] at hl
        rcases List.mem_cons.mp hl with h | h
        · subst h
          intro hmem
          rcases List.mem_cons.mp hmem with h' | h'
          · exact hc h'.symm
          · exact ih l₀ (by rw [hsp]; simp) h'
        · exact ih l (by rw [hsp]; simp [h])

theorem splitNL_of_no_nl {l : Str} (h : '\n' ∉ l) : splitNL l = [l] := by
  induction l with
  | nil => rfl
  | cons c cs ih =>
    have hc : c ≠ '\n' := by intro hx; exact h (by simp [hx])
    unfold splitNL
    rw [if_neg hc, ih (fun hx => h (by simp [hx]))]

theorem splitNL_append_newline {l : Str} (rest : Str) (h : '\n' ∉ l) :
    splitNL (l ++ '\n' :: rest) = l :: splitNL rest := by
  induction l with
  | nil => simp [splitNL]
  | cons c cs ih =>
    have hc : c ≠ '\n' := by intro hx; exact h (by simp [hx])
    have ih' := ih (fun hx => h (by simp [hx]))
    show splitNL (c :: (cs ++ '\n' :: rest)) = _
    rw [show splitNL (c :: (cs ++ '\n' :: rest)) =
        if c = '\n' then [] :: splitNL (cs ++ '\n' :: rest)
        else (match splitNL (cs ++ '\n' :: rest) with
              | [] => [[c]]
              | l :: ls => (c :: l) :: ls) from rfl]
    rw [if_neg hc, ih']

theorem splitNL_intercalNL {ls : List Str} (hne : ls ≠ [])
    (h : ∀ l ∈ ls, '\n' ∉ l) : splitNL (intercalNL ls) = ls := by
  induction ls with
  | nil => exact absurd rfl hne
  | cons l ls ih =>
    cases ls with
    | nil => exact splitNL_of_no_nl (h l (by simp))
    | cons l₂ ls₂ =>
      show splitNL (l ++ '\n' :: intercalNL (l₂ :: ls₂)) = _
      rw [splitNL_append_newline _ (h l (by simp))]
      rw [ih (by simp) (fun l' hl' => h l' (by simp [hl']))]

theorem expandLine_indent_step {c : Char} {cs : Str} (hc : isIndentCh c = true) :
    expandLine (c :: cs) =
      (if c = '\t' then [' ', ' '] else [c]) ++ expandLine cs := by
  unfold expandLine
  rw [List.takeWhile_cons, if_pos hc, List.dropWhile_cons, if_pos hc]
  simp

theorem expandLine_no_indent {c : Char} {cs : Str} (hc : isIndentCh c = false) :
    expandLine (c :: cs) = c :: cs := by
  unfold expandLine
  rw [List.takeWhile_cons, if_neg (by simp [hc]), List.dropWhile_cons, if_neg (by simp [hc])]
  rfl

theorem expandLine_mapped_indent (l : Str) :
    ∀ x ∈ (l.takeWhile isIndentCh).flatMap
      (fun c => if c = '\t' then [' ', ' '] else [c]), isIndentCh x = true := by
  intro x hx
  rw [List.mem_flatMap] at hx
  obtain ⟨c, hc, hx⟩ := hx
  have hcind : isIndentCh c = true := List.mem_takeWhile_imp hc
  by_cases ht : c = '\t'
  · rw [if_pos ht] at hx
    have hxs : x = ' ' := by
      rcases List.mem_cons.mp hx with h | h
      · exact h
      · simpa using h
    simp [hxs, isIndentCh]
  · rw [if_neg ht] at hx
    have hxc : x = c := by simpa using hx
    rw [hxc]
    exact hcind

theorem expandLine_mapped_ws (l : Str) :
    ∀ x ∈ (l.takeWhile isIndentCh).flatMap
      (fun c => if c = '\t' then [' ', ' '] else [c]), isWs x = true := by
  intro x hx
  have h := expandLine_mapped_indent l x hx
  revert h
  simp only [isIndentCh, isWs, Bool.or_eq_true, decide_eq_true_eq]
  rintro (h | h) <;> simp [h]

theorem jsTrim_expandLine (l : Str) : jsTrim (expandLine l) = jsTrim l := by
  unfold expandLine jsTrim
  rw [dropWhile_all_append _ (expandLine_mapped_ws l)]
  conv_rhs => rw [← List.takeWhile_append_dropWhile (p := isIndentCh) (l := l)]
  rw [dropWhile_all_append _ (fun a ha => by
    have := List.mem_takeWhile_imp ha
    revert this
    simp [isIndentCh, isWs]
    rintro (h | h) <;> simp [h])]

theorem getIndentLevel_expandLine (l : Str) :
    getIndentLevel (expandLine l) = getIndentLevel l := by
  induction l with
  | nil => rfl
  | cons c cs ih =>
    by_cases hc : isIndentCh c = true
    · rw [expandLine_indent_step hc]
      rcases (by simpa [isIndentCh] using hc : c = ' ' ∨ c = '\t') with h | h
      · subst h
        rw [if_neg (by decide)]
        show getIndentLevel (' ' :: expandLine cs) = getIndentLevel (' ' :: cs)
        show getIndentLevel (expandLine cs) + 1 = getIndentLevel cs + 1
        rw [ih]
      · subst h
        rw [if_pos rfl]
        show getIndentLevel (' ' :: ' ' :: expandLine cs) = getIndentLevel ('\t' :: cs)
        show getIndentLevel (expandLine cs) + 1 + 1 = getIndentLevel cs + 2
        rw [ih]
    · rw [expandLine_no_indent (by simpa using hc)]

theorem expandLine_no_nl {l : Str} (h : '\n' ∉ l) : '\n' ∉ expandLine l := by
  intro hx
  unfold expandLine at hx
  rcases List.mem_append.mp hx with hm | hm
  · have := expandLine_mapped_indent l '\n' hm
    simp [isIndentCh] at this
  · exact h (List.dropWhile_subset _ hm)

theorem stepLine_congr {l' l : Str} {n' n : Option Str} (st : PState)
    (h1 : jsTrim l' = jsTrim l) (h2 : getIndentLevel l' = getIndentLevel l)
    (h3 : nextDash n' = nextDash n) :
    stepLine l' n' st = stepLine l n st := by
  unfold stepLine
  rw [h1, h2, h3]

theorem parseLinesE_map_expand (ls : List Str) (st : PState) :
    parseLinesE (ls.map expandLine) st = parseLinesE ls st := by
  induction ls generalizing st with
  | nil => rfl
  | cons l ls ih =>
    show (match stepLine (expandLine l) (ls.map expandLine).head? st with
          | Except.error e => Except.error e
          | Except.ok st' => parseLinesE (ls.map expandLine) st') = _
    have h3 : nextDash (ls.map expandLine).head? = nextDash ls.head? := by
      cases ls with
      | nil => rfl
      | cons a as =>
        show dashSpace (jsTrim (expandLine a)) = dashSpace (jsTrim a)
        rw [jsTrim_expandLine a]
    rw [stepLine_congr st (jsTrim_expandLine l) (getIndentLevel_expandLine l) h3]
    show _ = (match stepLine l ls.head? st with
              | Except.error e => Except.error e
              | Except.ok st' => parseLinesE ls st')
    cases stepLine l ls.head? st with
    | error e => rfl
    | ok st' => exact ih st'

/-! ### Round-trip machinery: values, objects, states -/

theorem parseValue_not_container (v : Str) :
    isContainer (parseValue v) = false := by
  unfold parseValue
  split
  · rfl
  · split
    · rfl
    · split
      · rfl
      · split
        · rfl
        · split
          · rfl
          · split
            · rfl
            · split <;> rfl

theorem setKey_setKey (o : JsObj) (k : Str) (a b : JsVal) :
    setKey (setKey o k a) k b = setKey o k b := by
  induction o with
  | nil => simp [setKey]
  | cons kv rest ih =>
    obtain ⟨k', v'⟩ := kv
    by_cases h : k' = k
    · simp [setKey, h]
    · simp [setKey, h, ih]

theorem setKey_fresh {o : JsObj} {k : Str} (v : JsVal)
    (h : k ∉ o.map Prod.fst) : setKey o k v = o ++ [(k, v)] := by
  induction o with
  | nil => rfl
  | cons kv rest ih =>
    obtain ⟨k', v'⟩ := kv
    have hne : k' ≠ k := by
      intro hx
      exact h (by simp [hx])
    simp only [setKey, if_neg hne, List.cons_append, List.cons.injEq, true_and]
    exact ih (fun hx => h (by simp [hx]))

theorem foldInsert_fresh {es : List (Str × JsVal)} (h : GoodE es) :
    ∀ acc, (∀ k ∈ es.map Prod.fst, k ∉ acc.map Prod.fst) →
    foldInsert acc es = acc ++ normEntries es := by
  induction h with
  | nil => intro acc _; simp [foldInsert, normEntries]
  | scalar hk hv hfresh hes ih =>
    rename_i k v es'
    intro acc hacc
    show foldInsert (setKey acc k (normVal v)) es' = _
    rw [setKey_fresh (normVal v) (hacc k (by simp))]
    rw [ih (acc ++ [(k, normVal v)]) ?hside]
    · simp [normEntries]
    · intro k' hk'
      have h2 := hacc k' (by simp [hk'])
      intro hx
      rw [List.map_append, List.mem_append] at hx
      rcases hx with hy | hy
      · exact h2 hy
      · simp at hy
        subst hy
        exact hfresh hk'
  | object hk ho hfresh hes iho ih =>
    rename_i k o es'
    intro acc hacc
    show foldInsert (setKey acc k (normVal (.obj o))) es' = _
    rw [setKey_fresh (normVal (.obj o)) (hacc k (by simp))]
    rw [ih (acc ++ [(k, normVal (.obj o))]) ?hside2]
    · simp [normEntries]
    · intro k' hk'
      have h2 := hacc k' (by simp [hk'])
      intro hx
      rw [List.map_append, List.mem_append] at hx
      rcases hx with hy | hy
      · exact h2 hy
      · simp at hy
        subst hy
        exact hfresh hk'

theorem foldInsert_nil_good {es : List (Str × JsVal)} (h : GoodE es) :
    foldInsert [] es = normEntries es := by
  have := foldInsert_fresh h [] (by simp)
  simpa using this

theorem setTop_setTop (st : PState) (o o' : JsObj) :
    setTop (setTop st o) o' = setTop st o' := by
  unfold setTop
  cases st.frames <;> rfl

theorem topObj_setTop (st : PState) (o : JsObj) : topObj (setTop st o) = o := by
  unfold topObj setTop
  cases st.frames <;> rfl

theorem setTop_frames_indents (st : PState) (o : JsObj) :
    ((setTop st o).frames).map Frame.indent = st.frames.map Frame.indent := by
  unfold setTop
  cases st.frames <;> rfl

theorem cleanAt_iff_indents (st : PState) (w : Nat) :
    cleanAt st w ↔ ∀ i ∈ st.frames.map Frame.indent, i < w := by
  unfold cleanAt
  simp

theorem cleanAt_setTop {st : PState} {w : Nat} (o : JsObj) (h : cleanAt st w) :
    cleanAt (setTop st o) w := by
  rw [cleanAt_iff_indents] at h ⊢
  rw [setTop_frames_indents]
  exact h

theorem cleanAt_setTopKey {st : PState} {w : Nat} (k : Str) (v : JsVal)
    (h : cleanAt st w) : cleanAt (setTopKey st k v) w := cleanAt_setTop _ h

theorem cleanAt_mono {st : PState} {w w' : Nat} (hw : w ≤ w') (h : cleanAt st w) :
    cleanAt st w' := fun f hf => Nat.lt_of_lt_of_le (h f hf) hw

theorem unwind_of_clean {st : PState} {w : Nat} (h : cleanAt st w) :
    unwindState st w = st := by
  unfold unwindState unwindAux
  cases hfr : st.frames with
  | nil =>
    show ({ root := st.root, frames := [], cak := st.cak } : PState) = st
    rw [← hfr]
  | cons f fs =>
    have hf : f.indent < w := h f (by rw [hfr]; simp)
    cases fs with
    | nil =>
      unfold unwindGo
      rw [if_neg (by omega)]
      rw [← hfr]
    | cons g fs' =>
      unfold unwindGo
      rw [if_neg (by omega)]
      rw [← hfr]

theorem unwindGo_compose {w' w'' : Nat} (hw : w' ≤ w'') :
    ∀ (fs : List Frame) (f : Frame) (root : JsObj),
      unwindAux w' (unwindGo w'' f fs root).1 (unwindGo w'' f fs root).2 =
        unwindGo w' f fs root := by
  intro fs
  induction fs with
  | nil =>
    intro f root
    unfold unwindGo
    by_cases h : w'' ≤ f.indent
    · rw [if_pos h]
      show unwindAux w' [] _ = _
      rw [if_pos (by omega)]
      rfl
    · rw [if_neg h]
      show unwindAux w' [f] root = _
      unfold unwindAux
      rfl
  | cons g fs' ih =>
    intro f root
    by_cases h : w'' ≤ f.indent
    · have hL : unwindGo w'' f (g :: fs') root =
          unwindGo w'' { g with obj := setKey g.obj f.key (.obj f.obj) } fs' root := by
        show (if w'' ≤ f.indent then
                unwindGo w'' { g with obj := setKey g.obj f.key (.obj f.obj) } fs' root
              else (f :: g :: fs', root)) = _
        rw [if_pos h]
      have hR : unwindGo w' f (g :: fs') root =
          unwindGo w' { g with obj := setKey g.obj f.key (.obj f.obj) } fs' root := by
        show (if w' ≤ f.indent then
                unwindGo w' { g with obj := setKey g.obj f.key (.obj f.obj) } fs' root
              else (f :: g :: fs', root)) = _
        rw [if_pos (by omega)]
      rw [hL, ih, hR]
    · have hL : unwindGo w'' f (g :: fs') root = (f :: g :: fs', root) := by
        show (if w'' ≤ f.indent then
                unwindGo w'' { g with obj := setKey g.obj f.key (.obj f.obj) } fs' root
              else (f :: g :: fs', root)) = _
        rw [if_neg h]
      rw [hL]
      rfl

theorem unwind_compose {st : PState} {w' w'' : Nat} (hw : w' ≤ w'') :
    unwindState (unwindState st w'') w' = unwindState st w' := by
  cases hfr : st.frames with
  | nil => simp [unwindState, unwindAux, hfr]
  | cons f fs =>
    simp only [unwindState, hfr]
    rw [show unwindAux w'' (f :: fs) st.root = unwindGo w'' f fs st.root from rfl]
    rw [unwindGo_compose hw]
    rfl

/-! ### Emission lemmas and the parse-over-emission induction -/

theorem emitEntries_scalar_cons {v : JsVal} (k : Str) (es : List (Str × JsVal))
    (ind : Nat) (h : isContainer v = false) :
    emitEntries ((k, v) :: es) ind =
      (spacesOf ind ++ (k ++ ':' :: ' ' :: formatValue v)) :: emitEntries es ind := by
  cases v <;> simp [emitEntries] <;> simp [isContainer] at h

theorem stringifyEntries_scalar_cons {v : JsVal} (k : Str)
    (es : List (Str × JsVal)) (ind : Nat) (h : isContainer v = false) :
    stringifyEntries ((k, v) :: es) ind =
      (spacesOf ind ++ (k ++ (':' :: ' ' :: (formatValue v ++ ['\n'])))) ++
        stringifyEntries es ind := by
  cases v <;> simp [stringifyEntries] <;> simp [isContainer] at h

theorem procE_scalar_cons {v : JsVal} (st : PState) (k : Str)
    (es : List (Str × JsVal)) (ind : Nat) (h : isContainer v = false) :
    procE st ((k, v) :: es) ind =
      procE (setTopKey (unwindState st (2 * ind)) k (parseValue (formatValue v)))
        es ind := by
  cases v <;> simp [procE] <;> simp [isContainer] at h

theorem procE_obj_cons (st : PState) (k : Str) (o es : List (Str × JsVal))
    (ind : Nat) :
    procE st ((k, .obj o) :: es) ind =
      procE
        (procE
          (pushFrame (setTopKey (unwindState st (2 * ind)) k (.obj []))
            ⟨[], 2 * ind, k⟩)
          o (ind + 1))
        es ind := by
  simp [procE]

/-- The trimmed form of an emitted scalar entry line. -/
theorem jsTrim_scalar_line {k t : Str} (ind : Nat) (hk : GoodKey k = true)
    (ht : jsTrim t = t) (hne : t ≠ []) :
    jsTrim (spacesOf ind ++ (k ++ ':' :: ' ' :: t)) = k ++ ':' :: ' ' :: t := by
  obtain ⟨hkne, hktrim, _, _, _, _⟩ := goodKey_parts hk
  have htrimR : trimR t ≠ [] := by
    rw [(jsTrim_parts ht).2]; exact hne
  have htr : trimR (':' :: ' ' :: t) = ':' :: ' ' :: t := by
    have h2 := trimR_append_of_ne ([':', ' ']) htrimR
    simpa [(jsTrim_parts ht).2] using h2
  have := jsTrim_line (k := k) (r := ':' :: ' ' :: t) hktrim hkne
    (by rw [htr]; simp) (2 * ind)
  unfold spacesOf
  rw [this, htr]

/-- The trimmed form of an emitted mapping-opening line. -/
theorem jsTrim_empty_line {k : Str} (ind : Nat) (hk : GoodKey k = true) :
    jsTrim (spacesOf ind ++ (k ++ [':'])) = k ++ [':'] := by
  obtain ⟨hkne, hktrim, _, _, _, _⟩ := goodKey_parts hk
  have := jsTrim_line (k := k) (r := [':']) hktrim hkne (by decide) (2 * ind)
  unfold spacesOf
  simpa using this

/-- No line emitted for good entries is classified as a sequence item. -/
theorem emit_lines_not_dash {es : List (Str × JsVal)} (h : GoodE es) :
    ∀ ind l, l ∈ emitEntries es ind → dashSpace (jsTrim l) = false := by
  induction h with
  | nil => intro ind l hl; simp [emitEntries] at hl
  | scalar hk hv hfresh hes ih =>
    rename_i k v es'
    intro ind l hl
    obtain ⟨hkne, _, _, _, _, hkdash⟩ := goodKey_parts hk
    obtain ⟨hcont, _, hfne, hftrim, _, _, _⟩ := wscalar_parts hv
    rw [emitEntries_scalar_cons k es' ind hcont] at hl
    rcases List.mem_cons.mp hl with hx | hx
    · subst hx
      rw [jsTrim_scalar_line ind hk hftrim hfne]
      exact dashSpace_key_line (' ' :: formatValue v) hkne hkdash
    · exact ih ind l hx
  | object hk ho hfresh hes iho ih =>
    rename_i k o es'
    intro ind l hl
    obtain ⟨hkne, _, _, _, _, hkdash⟩ := goodKey_parts hk
    simp only [emitEntries, List.cons_append, List.mem_cons, List.mem_append] at hl
    rcases hl with hx | hx | hx
    · subst hx
      rw [jsTrim_empty_line ind hk]
      exact dashSpace_key_line [] hkne hkdash
    · exact iho (ind + 1) l hx
    · exact ih ind l hx

/-- A safe continuation: its first line (when any) is not a sequence
item, so it cannot arm the pending-array key through the look-ahead. -/
def nextSafe (rest : List Str) : Prop :=
  ∀ l, rest.head? = some l → dashSpace (jsTrim l) = false

theorem nextSafe_emit {es : List (Str × JsVal)} (h : GoodE es) (ind : Nat)
    {rest : List Str} (hrest : nextSafe rest) :
    nextSafe (emitEntries es ind ++ rest) := by
  intro l hl
  cases hes : emitEntries es ind with
  | nil => exact hrest l (by rw [hes] at hl; simpa using hl)
  | cons e els =>
    rw [hes] at hl
    simp at hl
    subst hl
    exact emit_lines_not_dash h ind e (by rw [hes]; simp)

theorem nextDash_of_safe {rest : List Str} (h : nextSafe rest) :
    nextDash rest.head? = false := by
  cases hh : rest.head? with
  | none => rfl
  | some l =>
    show dashSpace (jsTrim l) = false
    exact h l hh

/-- Parsing the emitted lines of good entries drives the machine along
`procE`, for any continuation whose first line is not a sequence item. -/
theorem parse_emit {es : List (Str × JsVal)} (h : GoodE es) :
    ∀ ind st (rest : List Str), nextSafe rest →
      parseLinesE (emitEntries es ind ++ rest) st = parseLinesE rest (procE st es ind) := by
  induction h with
  | nil => intro ind st rest _; simp [emitEntries, procE]
  | scalar hk hv hfresh hes ih =>
    rename_i k v es'
    intro ind st rest hrest
    obtain ⟨hcont, _, hfne, hftrim, _, _, _⟩ := wscalar_parts hv
    rw [emitEntries_scalar_cons k es' ind hcont]
    show (match stepLine (spacesOf ind ++ (k ++ ':' :: ' ' :: formatValue v))
            (emitEntries es' ind ++ rest).head? st with
          | Except.error e => Except.error e
          | Except.ok st' => parseLinesE (emitEntries es' ind ++ rest) st') = _
    rw [show spacesOf ind ++ (k ++ ':' :: ' ' :: formatValue v) =
        List.replicate (2 * ind) ' ' ++ (k ++ ':' :: ' ' :: formatValue v) from rfl]
    rw [stepLine_keyvalue (2 * ind) _ st hk hftrim hfne]
    show parseLinesE (emitEntries es' ind ++ rest)
        (setTopKey (unwindState st (2 * ind)) k (parseValue (formatValue v))) = _
    rw [ih ind _ rest hrest]
    rw [procE_scalar_cons st k es' ind hcont]
  | object hk ho hfresh hes iho ih =>
    rename_i k o es'
    intro ind st rest hrest
    have hshape : emitEntries ((k, JsVal.obj o) :: es') ind ++ rest =
        (spacesOf ind ++ (k ++ [':'])) ::
          (emitEntries o (ind + 1) ++ (emitEntries es' ind ++ rest)) := by
      simp [emitEntries]
    rw [hshape]
    show (match stepLine (spacesOf ind ++ (k ++ [':']))
            (emitEntries o (ind + 1) ++ (emitEntries es' ind ++ rest)).head? st with
          | Except.error e => Except.error e
          | Except.ok st' =>
              parseLinesE (emitEntries o (ind + 1) ++ (emitEntries es' ind ++ rest)) st') = _
    rw [show spacesOf ind ++ (k ++ [':']) =
        List.replicate (2 * ind) ' ' ++ (k ++ [':']) from rfl]
    rw [stepLine_keyempty (2 * ind) _ st hk]
    rw [nextDash_of_safe (nextSafe_emit ho (ind + 1)
      (nextSafe_emit hes ind hrest))]
    simp only [Bool.false_eq_true, if_false]
    show parseLinesE (emitEntries o (ind + 1) ++ (emitEntries es' ind ++ rest))
        (pushFrame (setTopKey (unwindState st (2 * ind)) k (JsVal.obj []))
          ⟨[], 2 * ind, k⟩) = _
    rw [iho (ind + 1) _ (emitEntries es' ind ++ rest) (nextSafe_emit hes ind hrest)]
    rw [ih ind _ rest hrest]
    rw [procE_obj_cons st k o es' ind]

/-! ### The decoder state after the emitted lines (characterization) -/

theorem setTop_topObj (st : PState) : setTop st (topObj st) = st := by
  obtain ⟨root, frames, cak⟩ := st
  cases frames with
  | nil => rfl
  | cons f fs => rfl

theorem topObj_setTopKey (st : PState) (k : Str) (v : JsVal) :
    topObj (setTopKey st k v) = setKey (topObj st) k v := topObj_setTop st _

theorem setTop_setTopKey (st : PState) (k : Str) (v : JsVal) (o : JsObj) :
    setTop (setTopKey st k v) o = setTop st o := setTop_setTop st _ o

theorem setTopKey_setTopKey (st : PState) (k : Str) (a b : JsVal) :
    setTopKey (setTopKey st k a) k b = setTopKey st k b := by
  unfold setTopKey
  rw [topObj_setTop, setTop_setTop, setKey_setKey]

theorem normVal_scalar {v : JsVal} (h : isContainer v = false) :
    normVal v = parseValue (formatValue v) := by
  cases v <;> first | rfl | simp [isContainer] at h

theorem procE_nil (st : PState) (ind : Nat) : procE st [] ind = st := by
  simp [procE]

theorem procE_cons_eq {st st' : PState} (e : Str × JsVal)
    (es : List (Str × JsVal)) (ind : Nat)
    (h : unwindState st (2 * ind) = unwindState st' (2 * ind)) :
    procE st (e :: es) ind = procE st' (e :: es) ind := by
  obtain ⟨k, v⟩ := e
  cases v <;> (simp only [procE]; rw [h])

theorem unwind_push_clean {st : PState} {w : Nat} (o : JsObj) (k : Str)
    (h : cleanAt st w) :
    unwindState (pushFrame st ⟨o, w, k⟩) w = setTopKey st k (.obj o) := by
  show unwindState { st with frames := ⟨o, w, k⟩ :: st.frames } w = _
  cases hfr : st.frames with
  | nil =>
    show ({ st with
        frames := (unwindGo w ⟨o, w, k⟩ [] st.root).1,
        root := (unwindGo w ⟨o, w, k⟩ [] st.root).2 } : PState) = _
    unfold unwindGo
    rw [if_pos (Nat.le_refl w)]
    unfold setTopKey setTop topObj
    rw [hfr]
  | cons g fs =>
    show ({ st with
        frames := (unwindGo w ⟨o, w, k⟩ (g :: fs) st.root).1,
        root := (unwindGo w ⟨o, w, k⟩ (g :: fs) st.root).2 } : PState) = _
    have hgo : unwindGo w ⟨o, w, k⟩ (g :: fs) st.root =
        unwindGo w { g with obj := setKey g.obj k (.obj o) } fs st.root := by
      show (if w ≤ w then
              unwindGo w { g with obj := setKey g.obj k (.obj o) } fs st.root
            else _) = _
      rw [if_pos (Nat.le_refl w)]
    have hg : g.indent < w := h g (by rw [hfr]; simp)
    have hstop : unwindGo w { g with obj := setKey g.obj k (.obj o) } fs st.root =
        ({ g with obj := setKey g.obj k (.obj o) } :: fs, st.root) := by
      cases fs with
      | nil =>
        unfold unwindGo
        rw [if_neg (by simp; omega)]
      | cons g2 fs2 =>
        unfold unwindGo
        rw [if_neg (by simp; omega)]
    rw [hgo, hstop]
    unfold setTopKey setTop topObj
    rw [hfr]

/-- After consuming the emitted lines of good entries, unwinding back to
the entries' width leaves exactly the original state with the
(re-coerced) entries folded into its top object. -/
theorem procE_unwind {es : List (Str × JsVal)} (h : GoodE es) :
    ∀ ind st, cleanAt st (2 * ind) →
      unwindState (procE st es ind) (2 * ind) =
        setTop st (foldInsert (topObj st) es) := by
  induction h with
  | nil =>
    intro ind st hcl
    rw [procE_nil, unwind_of_clean hcl]
    show _ = setTop st (topObj st)
    rw [setTop_topObj]
  | scalar hk hv hfresh hes ih =>
    rename_i k v es'
    intro ind st hcl
    obtain ⟨hcont, _, _, _, _, _, _⟩ := wscalar_parts hv
    rw [procE_scalar_cons st k es' ind hcont, unwind_of_clean hcl]
    rw [ih ind _ (cleanAt_setTopKey k _ hcl)]
    rw [setTop_setTopKey, topObj_setTopKey]
    show _ = setTop st (foldInsert (setKey (topObj st) k (normVal v)) es')
    rw [normVal_scalar hcont]
  | object hk ho hfresh hes iho ih =>
    rename_i k o es'
    intro ind st hcl
    rw [procE_obj_cons st k o es' ind, unwind_of_clean hcl]
    have htwo : 2 * (ind + 1) = 2 * ind + 2 := by ring
    set base := setTopKey st k (JsVal.obj []) with hbase
    have hclbase : cleanAt base (2 * ind) := cleanAt_setTopKey k _ hcl
    set st1 := pushFrame base ⟨[], 2 * ind, k⟩ with hst1
    have hcl1 : cleanAt st1 (2 * (ind + 1)) := by
      intro f hf
      rw [hst1] at hf
      rcases List.mem_cons.mp hf with hx | hx
      · subst hx
        show 2 * ind < 2 * (ind + 1)
        omega
      · have := hclbase f hx
        omega
    have hmid : unwindState (procE st1 o (ind + 1)) (2 * ind) =
        setTopKey st k (.obj (foldInsert [] o)) := by
      have h1 := iho (ind + 1) st1 hcl1
      have h2 : unwindState (procE st1 o (ind + 1)) (2 * ind) =
          unwindState (unwindState (procE st1 o (ind + 1)) (2 * (ind + 1)))
            (2 * ind) := by
        rw [unwind_compose (by omega)]
      rw [h2, h1]
      have h3 : setTop st1 (foldInsert (topObj st1) o) =
          pushFrame base ⟨foldInsert [] o, 2 * ind, k⟩ := by
        rw [hst1]
        rfl
      rw [h3, unwind_push_clean _ _ hclbase, hbase, setTopKey_setTopKey]
    cases es' with
    | nil =>
      rw [procE_nil]
      rw [hmid, foldInsert_nil_good ho]
      show _ = setTop st (foldInsert (setKey (topObj st) k (normVal (.obj o))) [])
      show _ = setTop st (setKey (topObj st) k (normVal (.obj o)))
      rfl
    | cons e es'' =>
      set st3 := setTopKey st k (.obj (foldInsert [] o)) with hst3
      have hcl3 : cleanAt st3 (2 * ind) := cleanAt_setTopKey k _ hcl
      have heqw : unwindState (procE st1 o (ind + 1)) (2 * ind) =
          unwindState st3 (2 * ind) := by
        rw [hmid, unwind_of_clean hcl3]
      rw [procE_cons_eq e es'' ind heqw]
      rw [ih ind st3 hcl3]
      rw [hst3, setTop_setTopKey, topObj_setTopKey]
      show _ = setTop st (foldInsert (setKey (topObj st) k (normVal (.obj o)))
        (e :: es''))
      rw [show normVal (.obj o) = .obj (normEntries o) from rfl,
        ← foldInsert_nil_good ho]

/-! ### From the encoder's string to the emitted lines -/

theorem joinNL_cons (l : Str) (ls : List Str) :
    joinNL (l :: ls) = l ++ '\n' :: joinNL ls := rfl

theorem splitNL_joinNL {ls : List Str} (h : ∀ l ∈ ls, '\n' ∉ l) :
    splitNL (joinNL ls) = ls ++ [[]] := by
  induction ls with
  | nil => rfl
  | cons l ls ih =>
    rw [joinNL_cons, splitNL_append_newline _ (h l (by simp))]
    rw [ih (fun l' hl' => h l' (by simp [hl']))]
    rfl

theorem joinNL_append (a b : List Str) :
    joinNL (a ++ b) = joinNL a ++ joinNL b := by
  induction a with
  | nil => rfl
  | cons l ls ih => simp [joinNL_cons, ih]

theorem emit_lines_no_nl {es : List (Str × JsVal)} (h : GoodE es) :
    ∀ ind l, l ∈ emitEntries es ind → '\n' ∉ l := by
  induction h with
  | nil => intro ind l hl; simp [emitEntries] at hl
  | scalar hk hv hfresh hes ih =>
    rename_i k v es'
    intro ind l hl
    obtain ⟨hcont, _, _, _, hfnl, _, _⟩ := wscalar_parts hv
    rw [emitEntries_scalar_cons k es' ind hcont] at hl
    rcases List.mem_cons.mp hl with hx | hx
    · subst hx
      intro hmem
      rcases List.mem_append.mp hmem with hy | hy
      · simp [spacesOf, List.mem_replicate] at hy
      · rcases List.mem_append.mp hy with hz | hz
        · exact (goodKey_parts hk).2.2.2.1 hz
        · rcases List.mem_cons.mp hz with hw | hw
          · simp at hw
          · rcases List.mem_cons.mp hw with hu | hu
            · simp at hu
            · exact hfnl hu
    · exact ih ind l hx
  | object hk ho hfresh hes iho ih =>
    rename_i k o es'
    intro ind l hl
    simp only [emitEntries, List.cons_append, List.mem_cons, List.mem_append] at hl
    rcases hl with hx | hx | hx
    · subst hx
      intro hmem
      rcases List.mem_append.mp hmem with hy | hy
      · simp [spacesOf, List.mem_replicate] at hy
      · rcases List.mem_append.mp hy with hz | hz
        · exact (goodKey_parts hk).2.2.2.1 hz
        · simp at hz
    · exact iho (ind + 1) l hx
    · exact ih ind l hx

/-- The encoder's output for good entries is exactly the emitted lines,
each terminated by a newline. -/
theorem stringify_joinNL_emit {es : List (Str × JsVal)} (h : GoodE es) :
    ∀ ind, stringifyEntries es ind = joinNL (emitEntries es ind) := by
  induction h with
  | nil => intro ind; rfl
  | scalar hk hv hfresh hes ih =>
    rename_i k v es'
    intro ind
    obtain ⟨hcont, _, _, _, _, _, _⟩ := wscalar_parts hv
    rw [stringifyEntries_scalar_cons k es' ind hcont,
      emitEntries_scalar_cons k es' ind hcont, joinNL_cons, ih ind]
    simp
  | object hk ho hfresh hes iho ih =>
    rename_i k o es'
    intro ind
    show stringifyEntries ((k, .obj o) :: es') ind = _
    rw [show stringifyEntries ((k, .obj o) :: es') ind =
        (spacesOf ind ++ (k ++ (':' :: '\n' :: stringifyEntries o (ind + 1)))) ++
          stringifyEntries es' ind from by simp [stringifyEntries]]
    rw [show emitEntries ((k, .obj o) :: es') ind =
        ((spacesOf ind ++ (k ++ [':'])) :: emitEntries o (ind + 1)) ++
          emitEntries es' ind from by simp [emitEntries]]
    rw [iho (ind + 1), ih ind]
    rw [show joinNL (((spacesOf ind ++ (k ++ [':'])) :: emitEntries o (ind + 1)) ++
          emitEntries es' ind) =
        (spacesOf ind ++ (k ++ [':'])) ++
          '\n' :: joinNL (emitEntries o (ind + 1) ++ emitEntries es' ind) from rfl]
    rw [joinNL_append]
    simp

/-! ### The round trip assembled -/

/-- Decoding the encoder's output for good entries yields exactly the
entries with every scalar leaf re-coerced through its formatted token. -/
theorem parse_stringify_norm {es : List (Str × JsVal)} (h : GoodE es) :
    parseYaml (stringifyVal (.obj es) 0) = .ok (normEntries es) := by
  have hstr : stringifyVal (.obj es) 0 = stringifyEntries es 0 := rfl
  rw [hstr, stringify_joinNL_emit h 0]
  unfold parseYaml
  rw [splitNL_joinNL (fun l hl => emit_lines_no_nl h 0 l hl)]
  rw [parse_emit h 0 initState [[]]
    (fun l hl => by simp at hl; subst hl; decide)]
  have hP : ∀ X : PState, parseLinesE [[]] X = .ok X := fun X => rfl
  rw [hP]
  show Except.ok ((unwindState (procE initState es 0) 0).root) = _
  have hclean : cleanAt initState (2 * 0) := by
    intro f hf
    simp [initState] at hf
  have := procE_unwind h 0 initState hclean
  rw [show (2 * 0 : Nat) = 0 from rfl] at this
  rw [this]
  show Except.ok (foldInsert [] es) = _
  rw [foldInsert_nil_good h]

/-- Re-coercion does not change the encoder's output on good entries. -/
theorem stringifyEntries_norm {es : List (Str × JsVal)} (h : GoodE es) :
    ∀ ind, stringifyEntries (normEntries es) ind = stringifyEntries es ind := by
  induction h with
  | nil => intro ind; rfl
  | scalar hk hv hfresh hes ih =>
    rename_i k v es'
    intro ind
    obtain ⟨hcont, _, _, _, _, _, hrefmt⟩ := wscalar_parts hv
    have hcont' : isContainer (normVal v) = false := by
      rw [normVal_scalar hcont]
      exact parseValue_not_container _
    show stringifyEntries ((k, normVal v) :: normEntries es') ind = _
    rw [stringifyEntries_scalar_cons k (normEntries es') ind hcont',
      stringifyEntries_scalar_cons k es' ind hcont, ih ind]
    rw [normVal_scalar hcont, hrefmt]
  | object hk ho hfresh hes iho ih =>
    rename_i k o es'
    intro ind
    show stringifyEntries ((k, .obj (normEntries o)) :: normEntries es') ind = _
    rw [show stringifyEntries ((k, .obj (normEntries o)) :: normEntries es') ind =
        (spacesOf ind ++ (k ++ (':' :: '\n' ::
          stringifyEntries (normEntries o) (ind + 1)))) ++
          stringifyEntries (normEntries es') ind from by simp [stringifyEntries]]
    rw [show stringifyEntries ((k, JsVal.obj o) :: es') ind =
        (spacesOf ind ++ (k ++ (':' :: '\n' :: stringifyEntries o (ind + 1)))) ++
          stringifyEntries es' ind from by simp [stringifyEntries]]
    rw [iho (ind + 1), ih ind]

/-- Claim C1 (amended): `decode (encode v) = v` for mappings built from
`Null`, `Bool`, integer `Number`, stable `String` leaves and nested
mappings with good unique keys — `GoodE` — whenever re-coercion of the
leaves is the identity (which excludes coercible strings such as
`"true"`, `"123"`, quote-wrapped or whitespace-padded strings, and the
empty string); sequences are excluded because their encoding provably
does not decode back (see C2). -/
theorem c1_roundtrip_amended (es : List (Str × JsVal)) (h1 : GoodE es)
    (h2 : normEntries es = es) :
    parseYaml (stringifyVal (.obj es) 0) = .ok es := by
  rw [parse_stringify_norm h1, h2]

/-- Witness for the amended C1 on a nested concrete mapping. -/
theorem c1_roundtrip_amended_witness :
    parseYaml (stringifyVal (.obj
      [("a".data, .int 1),
       ("b".data, .obj [("c".data, .str "x: y".data)]),
       ("d".data, .bool false)]) 0) =
      .ok [("a".data, .int 1),
           ("b".data, .obj [("c".data, .str "x: y".data)]),
           ("d".data, .bool false)] :=
  c1_roundtrip_amended _
    (GoodE.scalar (by decide) (by decide) (by decide)
      (GoodE.object (by decide)
        (GoodE.scalar (by decide) (by decide) (by decide) GoodE.nil)
        (by decide)
        (GoodE.scalar (by decide) (by decide) (by decide) GoodE.nil)))
    rfl

/-- Claim C7 (amended): `encode (decode (encode v)) = encode v` for the
good mappings (`GoodE`) — including coercible string leaves such as
`"true"` whose re-coerced scalar formats back to the same token; the
counterexamples show it fails beyond this fragment (empty strings,
whitespace-padded strings, sequences). -/
theorem c7_reencode_amended (es : List (Str × JsVal)) (h : GoodE es) :
    (parseYaml (stringifyVal (.obj es) 0)).map
        (fun m => stringifyVal (.obj m) 0) =
      .ok (stringifyVal (.obj es) 0) := by
  rw [parse_stringify_norm h]
  show Except.ok (stringifyEntries (normEntries es) 0) =
    Except.ok (stringifyEntries es 0)
  rw [stringifyEntries_norm h 0]

/-- Witness for the amended C7, with a coercible string leaf showing the
idempotence survives the type change. -/
theorem c7_reencode_amended_witness :
    (parseYaml (stringifyVal (.obj [("a".data, .str "true".data)]) 0)).map
        (fun m => stringifyVal (.obj m) 0) =
      .ok (stringifyVal (.obj [("a".data, .str "true".data)]) 0) :=
  c7_reencode_amended _
    (GoodE.scalar (by decide) (by decide) (by decide) GoodE.nil)

/-! ### Quoted strings (claim C6) -/

theorem escapeQ_id {s : Str} (h : '\x22' ∉ s) : escapeQ s = s := by
  induction s with
  | nil => rfl
  | cons c cs ih =>
    have hc : c ≠ '\x22' := by intro hx; exact h (by simp [hx])
    simp only [escapeQ, if_neg hc]
    rw [ih (fun hx => h (by simp [hx]))]

theorem formatValue_quoted {s : Str} (h1 : ':' ∈ s) (h2 : '\x22' ∉ s) :
    formatValue (.str s) = '\x22' :: (s ++ ['\x22']) := by
  show (if needsQuoting s = true then '\x22' :: (escapeQ s ++ ['\x22']) else s) = _
  rw [if_pos (by simp [needsQuoting, h1]), escapeQ_id h2]

theorem parseValue_quoted (s : Str) :
    parseValue ('\x22' :: (s ++ ['\x22'])) = .str s := by
  unfold parseValue
  rw [if_neg (by intro hx; rw [show "true".data = ['t', 'r', 'u', 'e'] from rfl] at hx; simp at hx)]
  rw [if_neg (by intro hx; rw [show "false".data = ['f', 'a', 'l', 's', 'e'] from rfl] at hx; simp at hx)]
  rw [if_neg (by
    have hA : ('\x22' :: (s ++ ['\x22'])) ≠ "null".data := by
      intro hx
      rw [show "null".data = ['n', 'u', 'l', 'l'] from rfl] at hx
      simp at hx
    have hB : ('\x22' :: (s ++ ['\x22'])) ≠ "~".data := by
      intro hx
      rw [show "~".data = ['~'] from rfl] at hx
      simp at hx
    simp [hA, hB])]
  rw [if_neg (by simp)]
  rw [if_neg (by
    show ¬ intRegex ('\x22' :: (s ++ ['\x22'])) = true
    rw [show intRegex ('\x22' :: (s ++ ['\x22'])) =
      (('\x22' :: (s ++ ['\x22'])) ≠ [] &&
        ('\x22' :: (s ++ ['\x22'])).all isDigitCh) from rfl]
    simp [isDigitCh])]
  rw [if_neg (by
    show ¬ (if ((s ++ ['\x22']).drop
          ((s ++ ['\x22']).takeWhile (fun x => decide (x ≠ '.'))).length).head? =
          some '.' then false else false) = true
    rw [ite_self]
    simp)]
  rw [if_pos (by
    have hlast : ('\x22' :: (s ++ ['\x22'])).getLast? = some '\x22' := by
      rw [show ('\x22' :: (s ++ ['\x22'])) = ('\x22' :: s) ++ ['\x22'] from by simp]
      exact List.getLast?_concat _
    simp [hlast])]
  rw [show (('\x22' :: (s ++ ['\x22'])).drop 1) = s ++ ['\x22'] from rfl]
  rw [List.dropLast_concat]

theorem jsTrim_quoted (s : Str) :
    jsTrim ('\x22' :: (s ++ ['\x22'])) = '\x22' :: (s ++ ['\x22']) := by
  unfold jsTrim
  rw [dropWhile_eq_self_of_head (by intro c hc; cases hc; decide)]
  rw [show ('\x22' :: (s ++ ['\x22'])) = ('\x22' :: s) ++ ['\x22'] from by simp]
  rw [trimR_append_of_ne _ (by decide)]
  rfl

theorem wscalar_quoted {s : Str} (h1 : ':' ∈ s) (h2 : '\x22' ∉ s)
    (h3 : '\n' ∉ s) : WScalar (.str s) = true := by
  have hfmt := formatValue_quoted h1 h2
  have hpv := parseValue_quoted s
  unfold WScalar
  rw [hfmt]
  simp only [isContainer, isFloatV, Bool.not_false, Bool.true_and]
  rw [jsTrim_quoted s, hpv]
  simp only [isFloatV, intSafe, Bool.not_false, Bool.and_true, Bool.true_and]
  rw [hfmt]
  simp [h3, intSafe]

/-- Claim C6 (amended): a string value containing `':'` is rendered
wrapped in double quotes (embedded `'"'` escaped — but then decode does
not undo the escape, see the counterexample); when the string contains
no `'"'` and no newline, decoding the encoded mapping reproduces it
exactly. -/
theorem c6_quoting_amended (k s : Str) (hk : GoodKey k = true) (h1 : ':' ∈ s)
    (h2 : '\x22' ∉ s) (h3 : '\n' ∉ s) :
    formatValue (.str s) = '\x22' :: (s ++ ['\x22']) ∧
    parseYaml (stringifyVal (.obj [(k, .str s)]) 0) = .ok [(k, .str s)] := by
  refine ⟨formatValue_quoted h1 h2, ?_⟩
  have hg : GoodE [(k, .str s)] :=
    GoodE.scalar hk (wscalar_quoted h1 h2 h3) (by simp) GoodE.nil
  rw [parse_stringify_norm hg]
  show Except.ok [(k, parseValue (formatValue (.str s)))] = _
  rw [formatValue_quoted h1 h2, parseValue_quoted s]

/-- Witness for the amended C6 at the spec's own scenario
`⦃note: "a: b"⦄`. -/
theorem c6_quoting_amended_witness :
    formatValue (.str "a: b".data) = '\x22' :: ("a: b".data ++ ['\x22']) ∧
    parseYaml (stringifyVal (.obj [("note".data, .str "a: b".data)]) 0) =
      .ok [("note".data, .str "a: b".data)] :=
  c6_quoting_amended "note".data "a: b".data (by decide) (by decide)
    (by decide) (by decide)

/-- Claim C8 (confirmed): a document indented with tabs decodes exactly
as the same document with every leading tab replaced by two spaces —
`getIndentLevel` counts a leading tab as two width units and trimming
is insensitive to the change. -/
theorem c8_tabs_indent (s : Str) : parseYaml (expandTabsDoc s) = parseYaml s := by
  unfold parseYaml expandTabsDoc
  rw [splitNL_intercalNL (by simpa using splitNL_ne_nil s)
    (fun l hl => by
      rw [List.mem_map] at hl
      obtain ⟨l₀, hl₀, rfl⟩ := hl
      exact expandLine_no_nl (splitNL_no_nl s l₀ hl₀))]
  rw [parseLinesE_map_expand]

end YamlCodec
